import Mathlib

/-!
Verification of the agent-smart-memo memory subsystem.

This file gives a shallow embedding, in Lean 4, of the core data model and
operations of the agent-smart-memo plugin (slot store, graph store, embedding
gateway, LLM extraction pipeline, context-window selection, auto-recall scope
merge), translated from the TypeScript sources, together with theorems that
settle the specification claims C1 .. C10 about them.

Modelling conventions:
* JavaScript/JSON dynamic values are the inductive `JValue` (JSON numbers are
  modelled as `Int`; no claim here depends on fractional numeric literals
  inside message payloads).
* SQLite tables are lists of row structures; `TEXT` timestamps are `String`
  and are compared with the lexicographic `String` order, exactly as SQLite
  and JavaScript compare ISO-8601 strings.
* JavaScript `number` fields holding confidences/weights are `Rat`.
* Fallible operations return `Option`/`Bool` results.
-/

/-- A JSON-serialisable JavaScript value (sum type for the dynamic payloads
the plugin passes around). -/
inductive JValue where
  | jnull : JValue
  | jbool (b : Bool) : JValue
  | jnum (n : Int) : JValue
  | jstr (s : String) : JValue
  | jarr (elems : List JValue) : JValue
  | jobj (fields : List (String × JValue)) : JValue

/-- JavaScript property access `v.name` (also `v?.name`): `some` field value
on objects, otherwise `none` (standing for `undefined`). -/
def getField (v : JValue) (name : String) : Option JValue :=
  match v with
  | .jobj fields => fields.lookup name
  | _ => none

/-- JavaScript truthiness of a value. -/
def truthy : JValue → Bool
  | .jnull => false
  | .jbool b => b
  | .jnum n => n != 0
  | .jstr s => s != ""
  | .jarr _ => true
  | .jobj _ => true

mutual
/-- JavaScript string coercion (`String(v)`, template literals): plain
objects coerce to the literal string `[object Object]`; arrays coerce to
their comma-joined elements (`Array.prototype.toString`). -/
def jsToString : JValue → String
  | .jnull => "null"
  | .jbool b => if b then "true" else "false"
  | .jnum n => toString n
  | .jstr s => s
  | .jarr elems => String.intercalate "," (jsArrayElems elems)
  | .jobj _ => "[object Object]"

/-- Element coercion used by `Array.prototype.join`: `null` elements render
as the empty string. -/
def jsArrayElems : List JValue → List String
  | [] => []
  | .jnull :: rest => "" :: jsArrayElems rest
  | v :: rest => jsToString v :: jsArrayElems rest
end

/-- JSON string escaping for the two structurally relevant characters
(quote and backslash); other JSON escapes only insert backslash sequences
and play no role in any claim. -/
def escapeChar (c : Char) : List Char :=
  if c = '"' ∨ c = '\\' then ['\\', c] else [c]

/-- Escape the characters of a string for inclusion in JSON output. -/
def escapeString (s : String) : String :=
  ⟨s.data.foldr (fun c acc => escapeChar c ++ acc) []⟩

mutual
/-- Model of `JSON.stringify` on JSON-serialisable values. -/
def jsonStringify : JValue → String
  | .jnull => "null"
  | .jbool b => if b then "true" else "false"
  | .jnum n => toString n
  | .jstr s => "\"" ++ escapeString s ++ "\""
  | .jarr elems => "[" ++ String.intercalate "," (jsonStringifyList elems) ++ "]"
  | .jobj fields =>
      "\x7b" ++ String.intercalate "," (jsonStringifyFields fields) ++ "\x7d"

/-- Serialise the elements of a JSON array. -/
def jsonStringifyList : List JValue → List String
  | [] => []
  | v :: rest => jsonStringify v :: jsonStringifyList rest

/-- Serialise the fields of a JSON object. -/
def jsonStringifyFields : List (String × JValue) → List String
  | [] => []
  | (k, v) :: rest =>
      ("\"" ++ escapeString k ++ "\":" ++ jsonStringify v) :: jsonStringifyFields rest
end

/-- The string field `v.name` when it is a string, else `none`
(`typeof v.name === "string"` guard). -/
def strField (v : JValue) (name : String) : Option String :=
  match getField v name with
  | some (.jstr s) => some s
  | _ => none

/-- The strict-equality test `v?.type === t` against a string literal. -/
def typeIs (block : JValue) (t : String) : Bool :=
  match getField block "type" with
  | some (.jstr s) => s == t
  | _ => false

/-- One content block of a message array, rendered to text.  Direct
translation of the block cases inside `extractMessageText`
(src/hooks/auto-capture.ts lines 79-116): text blocks yield their text,
`tool_use` yields a bracketed tool tag interpolating `block.name ||
"unknown"` with JavaScript string coercion, `tool_result` and image blocks
yield fixed tags, objects fall back to `JSON.stringify`, primitives to
`String(block)`. -/
def renderBlock (block : JValue) : String :=
  if typeIs block "text" && (strField block "text").isSome then
    (strField block "text").getD ""
  else if typeIs block "tool_use" then
    "[Tool: " ++
      (match getField block "name" with
       | some n => if truthy n then jsToString n else "unknown"
       | none => "unknown") ++ "]"
  else if typeIs block "tool_result" then
    "[Tool Result]"
  else if typeIs block "image" || typeIs block "image_url" then
    "[Image]"
  else if (strField block "text").isSome then
    (strField block "text").getD ""
  else if (strField block "content").isSome then
    (strField block "content").getD ""
  else
    match block with
    | .jobj _ => jsonStringify block
    | .jarr _ => jsonStringify block
    | b => jsToString b

/-- `extractMessageText` (src/hooks/auto-capture.ts lines 72-162): flattens
message content that may be a string, an array of content blocks, or a
nested object carrying `text` or `content`.  The recursive call
`extractMessageText(contentValue)` on a nested array is inlined as the
array branch it immediately reduces to. -/
def extractMessageText (content : JValue) : String :=
  match content with
  | .jstr s => s
  | .jarr blocks => String.intercalate " " (blocks.map renderBlock)
  | .jobj _ =>
    match getField content "text" with
    | some (.jstr s) => s
    | some tv => jsonStringify tv
    | none =>
      match getField content "content" with
      | some (.jstr s) => s
      | some (.jarr xs) => String.intercalate " " (xs.map renderBlock)
      | some cv => jsonStringify cv
      | none => jsonStringify content
  | .jnull => ""
  | .jbool b => jsToString (.jbool b)
  | .jnum n => jsToString (.jnum n)

/-! ## SlotDB (src/db/slot-db.ts)

A slot table row, the `set`/`get`/`list`/`delete`/`getCurrentState`/
`cleanExpired` operations, and the operation language used to state the
reachable-state invariant of claim C2.

`SELECT ... ORDER BY` clauses are modelled without the final sort: every
claim about these reads quantifies over row membership and is insensitive
to presentation order.  `JSON.parse`/`JSON.stringify` round-tripping of the
`value` column is modelled by keeping the stored JSON text itself as the
value. -/

/-- Lexicographic strict comparison of character lists (the comparison
JavaScript `<`/`>` and SQLite `TEXT` ordering perform on the ISO-8601
timestamp strings stored by the plugin). -/
def charListLt : List Char → List Char → Bool
  | [], [] => false
  | [], _ :: _ => true
  | _ :: _, [] => false
  | a :: as, b :: bs => if a < b then true else if b < a then false else charListLt as bs

/-- Lexicographic strict comparison of strings. -/
def strLt (s t : String) : Bool :=
  charListLt s.data t.data

theorem charListLt_nil_right (l : List Char) : charListLt l [] = false := by
  cases l <;> rfl

theorem charListLt_irrefl (l : List Char) : charListLt l l = false := by
  induction l with
  | nil => rfl
  | cons a as ih => simp [charListLt, ih]

theorem charListLt_trans {l m n : List Char} (h1 : charListLt l m = true)
    (h2 : charListLt m n = true) : charListLt l n = true := by
  induction l generalizing m n with
  | nil =>
    cases n with
    | nil =>
      cases m with
      | nil => exact absurd h1 (by simp [charListLt])
      | cons b bs => exact absurd h2 (by simp [charListLt_nil_right])
    | cons c cs => rfl
  | cons a as ih =>
    cases m with
    | nil => exact absurd h1 (by simp [charListLt_nil_right])
    | cons b bs =>
      cases n with
      | nil => exact absurd h2 (by simp [charListLt_nil_right])
      | cons c cs =>
        simp only [charListLt] at h1 h2 ⊢
        rcases lt_trichotomy a b with hab | hab | hab
        · rcases lt_trichotomy b c with hbc | hbc | hbc
          · simp [lt_trans hab hbc]
          · subst hbc
            simp [hab]
          · rw [if_neg (lt_asymm hbc), if_pos hbc] at h2
            exact absurd h2 (by simp)
        · subst hab
          rw [if_neg (lt_irrefl a), if_neg (lt_irrefl a)] at h1
          rcases lt_trichotomy a c with hac | hac | hac
          · simp [hac]
          · subst hac
            rw [if_neg (lt_irrefl a), if_neg (lt_irrefl a)] at h2 ⊢
            exact ih h1 h2
          · rw [if_neg (lt_asymm hac), if_pos hac] at h2
            exact absurd h2 (by simp)
        · rw [if_neg (lt_asymm hab), if_pos hab] at h1
          exact absurd h1 (by simp)

theorem strLt_irrefl (s : String) : strLt s s = false :=
  charListLt_irrefl s.data

theorem strLt_trans {s t u : String} (h1 : strLt s t = true)
    (h2 : strLt t u = true) : strLt s u = true :=
  charListLt_trans h1 h2

theorem strLt_empty_right (s : String) : strLt s "" = false :=
  charListLt_nil_right s.data

/-- A row of the `slots` table. -/
structure SlotRow where
  id : String
  scope_user_id : String
  scope_agent_id : String
  category : String
  key : String
  value : String
  source : String
  confidence : Rat
  version : Nat
  created_at : String
  updated_at : String
  expires_at : Option String
deriving DecidableEq, Repr

/-- The `SlotSetInput` argument of `SlotDB.set`. -/
structure SlotSetInput where
  key : String
  value : JValue
  category : Option String
  source : Option String
  confidence : Option Rat
  expires_at : Option String

/-- `inferCategory` (slot-db.ts lines 388-400): the first dot-segment of the
key (`key.split(".")[0]`, computed as the characters before the first dot)
if it is a known category, else `custom`. -/
def inferCategory (key : String) : String :=
  let seg : String := ⟨key.data.takeWhile (fun c => !(c = '.'))⟩
  if (["profile", "preferences", "project", "environment"]).contains seg then seg
  else "custom"

/-- Row matches the scope and key used by `set`/`get`/`delete` lookups. -/
def keyMatch (u a k : String) (r : SlotRow) : Bool :=
  r.scope_user_id == u && r.scope_agent_id == a && r.key == k

/-- Row belongs to the scope `(u, a)`. -/
def scopeMatch (u a : String) (r : SlotRow) : Bool :=
  r.scope_user_id == u && r.scope_agent_id == a

/-- `SlotDB.set` (slot-db.ts lines 151-235).  `now` is the ISO timestamp
`new Date().toISOString()` and `nowMs` the `Date.now()` milliseconds used
for fresh row ids.  Returns the resulting slot and table, or `none` when
SQLite would reject the statement (duplicate primary key on insert, or an
update colliding with the UNIQUE(scope_user_id, scope_agent_id, category,
key) constraint); the TypeScript source leaves these checks to SQLite.
JavaScript `||` defaults treat the empty string as absent. -/
def SlotDB.set (u a : String) (inp : SlotSetInput) (now : String) (nowMs : Nat)
    (store : List SlotRow) : Option (SlotRow × List SlotRow) :=
  let category := match inp.category with
    | some c => if c = "" then inferCategory inp.key else c
    | none => inferCategory inp.key
  let valueJson := jsonStringify inp.value
  let source := match inp.source with
    | some s => if s = "" then "tool" else s
    | none => "tool"
  let confidence := inp.confidence.getD 1
  let expires := match inp.expires_at with
    | some e => if e = "" then none else some e
    | none => none
  match store.find? (keyMatch u a inp.key) with
  | some existing =>
    if store.any (fun q => !(q.id == existing.id) && q.scope_user_id == u &&
        q.scope_agent_id == a && q.category == category && q.key == existing.key) then
      none
    else
      let slot : SlotRow :=
        { existing with
          category := category
          value := valueJson
          source := source
          confidence := confidence
          version := existing.version + 1
          updated_at := now
          expires_at := expires }
      some (slot, store.map (fun q => if q.id == existing.id then
        { q with
          category := category
          value := valueJson
          source := source
          confidence := confidence
          version := q.version + 1
          updated_at := now
          expires_at := expires } else q))
  | none =>
    let id := category ++ ":" ++ inp.key ++ ":" ++ toString nowMs
    if store.any (fun q => q.id == id) then none
    else
      let row : SlotRow :=
        { id := id
          scope_user_id := u
          scope_agent_id := a
          category := category
          key := inp.key
          value := valueJson
          source := source
          confidence := confidence
          version := 1
          created_at := now
          updated_at := now
          expires_at := expires }
      some (row, store ++ [row])

/-- `SlotDB.delete` (slot-db.ts lines 313-324): removes the rows of the scope
with the key; returns whether any row was removed. -/
def SlotDB.delete (u a key : String) (store : List SlotRow) :
    Bool × List SlotRow :=
  (store.any (keyMatch u a key), store.filter (fun r => !(keyMatch u a key r)))

/-- `SlotDB.cleanExpired` (slot-db.ts lines 402-410): removes the scope's rows
whose `expires_at` is non-null and `< now`. -/
def SlotDB.cleanExpired (u a now : String) (store : List SlotRow) : List SlotRow :=
  store.filter (fun r => !(scopeMatch u a r &&
    (match r.expires_at with
     | some e => strLt e now
     | none => false)))

/-- `SlotDB.get` with a `key` filter (slot-db.ts lines 240-256): cleans the
scope's expired rows, then looks the key up.  Returns the result together
with the table it leaves behind. -/
def SlotDB.getByKey (u a key now : String) (store : List SlotRow) :
    Option SlotRow × List SlotRow :=
  let s := SlotDB.cleanExpired u a now store
  (s.find? (keyMatch u a key), s)

/-- `SlotDB.get` with a `category` filter (slot-db.ts lines 258-267). -/
def SlotDB.getByCategory (u a category now : String) (store : List SlotRow) :
    List SlotRow × List SlotRow :=
  let s := SlotDB.cleanExpired u a now store
  (s.filter (fun r => scopeMatch u a r && r.category == category), s)

/-- `SlotDB.get` without filters (slot-db.ts lines 269-277): all rows of the
scope. -/
def SlotDB.getAll (u a now : String) (store : List SlotRow) :
    List SlotRow × List SlotRow :=
  let s := SlotDB.cleanExpired u a now store
  (s.filter (scopeMatch u a), s)

/-- `SlotDB.list` (slot-db.ts lines 283-308) without the optional category
and key filters (no claim exercises them). -/
def SlotDB.list (u a now : String) (store : List SlotRow) :
    List SlotRow × List SlotRow :=
  SlotDB.getAll u a now store

/-- The nested `category → key → value` object built by `getCurrentState`,
as an association list. -/
abbrev CurrentState := List (String × List (String × String))

/-- JavaScript object assignment `entries[key] = value` on an association
list: overwrite in place or append. -/
def setEntry : List (String × String) → String → String → List (String × String)
  | [], k, v => [(k, v)]
  | (k', v') :: rest, k, v =>
      if k' = k then (k, v) :: rest else (k', v') :: setEntry rest k v

/-- `state[category][key] = value`, creating the category object on first
use (auto-capture of the loop body of `getCurrentState`). -/
def stateInsert : CurrentState → String → String → String → CurrentState
  | [], cat, k, v => [(cat, [(k, v)])]
  | (c, entries) :: rest, cat, k, v =>
      if c = cat then (c, setEntry entries k v) :: rest
      else (c, entries) :: stateInsert rest cat k v

/-- `SlotDB.getCurrentState` (slot-db.ts lines 329-356): cleans expired rows,
then folds every row of the scope into the two-level mapping.  No key is
filtered out. -/
def SlotDB.getCurrentState (u a now : String) (store : List SlotRow) :
    CurrentState × List SlotRow :=
  let s := SlotDB.cleanExpired u a now store
  (((s.filter (scopeMatch u a)).foldl
      (fun st r => stateInsert st r.category r.key r.value) []), s)

/-- JavaScript object property read on an association list. -/
def alistGet {α : Type} : List (String × α) → String → Option α
  | [], _ => none
  | (k0, v0) :: rest, k => if k = k0 then some v0 else alistGet rest k

/-- Lookup in the two-level state mapping. -/
def stateLookup (st : CurrentState) (cat k : String) : Option String :=
  (alistGet st cat).bind (fun entries => alistGet entries k)

/-! ### Operation language and reachable-state invariant (C2) -/

/-- One SlotDB call, as far as it affects the stored table.  The read
operations (`get`, `list`, `getCurrentState`) mutate only through
`cleanExpired`, which `opClean` captures. -/
inductive SlotOp where
  | opSet (u a : String) (inp : SlotSetInput) (now : String) (nowMs : Nat)
  | opDelete (u a key : String)
  | opClean (u a now : String)

/-- Effect of one operation on the table (a failed `set` raises in SQLite
and leaves the table unchanged). -/
def runOp (store : List SlotRow) : SlotOp → List SlotRow
  | .opSet u a inp now ms =>
    match SlotDB.set u a inp now ms store with
    | some (_, st) => st
    | none => store
  | .opDelete u a k => (SlotDB.delete u a k store).2
  | .opClean u a now => SlotDB.cleanExpired u a now store

/-- The table reached by a sequence of operations from the empty table. -/
def runOps (ops : List SlotOp) : List SlotRow :=
  ops.foldl runOp []

/-- Invariant: distinct live rows never share `(scope_user_id,
scope_agent_id, key)`, and row ids (the SQLite primary key) are distinct. -/
def SlotInv (store : List SlotRow) : Prop :=
  store.Pairwise (fun r q => ¬(r.scope_user_id = q.scope_user_id ∧
    r.scope_agent_id = q.scope_agent_id ∧ r.key = q.key)) ∧
  (store.map (fun r => r.id)).Nodup

/-- Same scope and key, as a proposition. -/
def SameKey (u a k : String) (r : SlotRow) : Prop :=
  r.scope_user_id = u ∧ r.scope_agent_id = a ∧ r.key = k

theorem keyMatch_iff {u a k : String} {r : SlotRow} :
    keyMatch u a k r = true ↔ SameKey u a k r := by
  simp [keyMatch, SameKey, Bool.and_eq_true, and_assoc]

theorem scopeMatch_iff {u a : String} {r : SlotRow} :
    scopeMatch u a r = true ↔ r.scope_user_id = u ∧ r.scope_agent_id = a := by
  simp [scopeMatch, Bool.and_eq_true]

/-- The slot-key collision relation used by `SlotInv`. -/
def KeyDistinct (r q : SlotRow) : Prop :=
  ¬(r.scope_user_id = q.scope_user_id ∧ r.scope_agent_id = q.scope_agent_id ∧
    r.key = q.key)

theorem slotInv_def (store : List SlotRow) :
    SlotInv store ↔ store.Pairwise KeyDistinct ∧
      (store.map (fun r => r.id)).Nodup := Iff.rfl

theorem slotInv_sublist {s t : List SlotRow} (h : s.Sublist t) (ht : SlotInv t) :
    SlotInv s :=
  ⟨ht.1.sublist h, ht.2.sublist (h.map (fun r => r.id))⟩

theorem slotInv_filter (p : SlotRow → Bool) {store : List SlotRow}
    (h : SlotInv store) : SlotInv (store.filter p) :=
  slotInv_sublist (List.filter_sublist store) h

/-- Replacing one row (identified by primary key) inside a table with
pairwise-distinct ids permutes the table to the replacement consed onto the
table with the original erased. -/
theorem map_replace_perm {l : List SlotRow} {r : SlotRow} (f : SlotRow → SlotRow)
    (hnd : (l.map (fun x => x.id)).Nodup) (hr : r ∈ l)
    (hfix : ∀ q, q.id ≠ r.id → f q = q) :
    List.Perm (l.map f) (f r :: l.erase r) := by
  induction l with
  | nil => cases hr
  | cons a t ih =>
    have hnd' : a.id ∉ t.map (fun x => x.id) ∧ (t.map (fun x => x.id)).Nodup := by
      simpa using hnd
    rcases List.mem_cons.1 hr with rfl | hrt
    · have hnot : ∀ q ∈ t, f q = q := by
        intro q hq
        refine hfix q ?_
        intro hid
        refine hnd'.1 ?_
        rw [← hid]
        exact List.mem_map_of_mem (fun x => x.id) hq
      have hmt : t.map f = t := by
        calc t.map f = t.map id := List.map_congr_left hnot
        _ = t := List.map_id t
      simp [hmt, List.erase_cons_head]
    · have haid : a.id ≠ r.id := by
        intro hid
        refine hnd'.1 ?_
        rw [hid]
        exact List.mem_map_of_mem (fun x => x.id) hrt
      have hane : a ≠ r := fun h => haid (by rw [h])
      have hfa : f a = a := hfix a haid
      have iht := ih hnd'.2 hrt
      have herase : (a :: t).erase r = a :: t.erase r := by
        rw [List.erase_cons_tail]
        simp [hane]
      rw [herase]
      have h1 : (a :: t).map f = a :: t.map f := by
        simp [hfa]
      rw [h1]
      exact (iht.cons a).trans (List.Perm.swap _ _ _)

/-- Mapping an id-preserving rewrite over a table keeps ids pairwise
distinct. -/
theorem nodup_ids_map {l : List SlotRow} (f : SlotRow → SlotRow)
    (hf : ∀ q, (f q).id = q.id)
    (h : (l.map (fun r => r.id)).Nodup) : ((l.map f).map (fun r => r.id)).Nodup := by
  rw [List.map_map]
  have hcomp : ((fun (r : SlotRow) => r.id) ∘ f) = fun (r : SlotRow) => r.id :=
    funext hf
  rw [hcomp]
  exact h

theorem slotInv_set {store : List SlotRow} {u a : String} {inp : SlotSetInput}
    {now : String} {ms : Nat} {slot : SlotRow} {st' : List SlotRow}
    (h : SlotInv store) (hs : SlotDB.set u a inp now ms store = some (slot, st')) :
    SlotInv st' := by
  rcases h with ⟨hpw, hnd⟩
  cases hfind : store.find? (keyMatch u a inp.key) with
  | some existing =>
    simp only [SlotDB.set, hfind] at hs
    split at hs
    · exact absurd hs (by simp)
    · simp only [Option.some.injEq, Prod.mk.injEq] at hs
      obtain ⟨-, hst⟩ := hs
      subst hst
      constructor
      · rw [List.pairwise_map]
        refine hpw.imp ?_
        intro r q hrq
        by_cases h1 : r.id == existing.id <;> by_cases h2 : q.id == existing.id <;>
          simp only [h1, h2, if_true, if_false] <;> simpa using hrq
      · refine nodup_ids_map _ ?_ hnd
        intro q
        by_cases hq : q.id == existing.id <;> simp [hq]
  | none =>
    simp only [SlotDB.set, hfind] at hs
    split at hs
    · exact absurd hs (by simp)
    · rename_i hany
      simp only [Option.some.injEq, Prod.mk.injEq] at hs
      obtain ⟨hslot, hst⟩ := hs
      subst hst
      have hnomatch : ∀ r ∈ store, ¬(keyMatch u a inp.key r = true) :=
        fun r hr => List.find?_eq_none.1 hfind r hr
      constructor
      · rw [List.pairwise_append]
        refine ⟨hpw, List.pairwise_singleton _ _, ?_⟩
        intro r hr q hq
        simp only [List.mem_singleton] at hq
        subst hq
        intro hcol
        exact hnomatch r hr (keyMatch_iff.2 ⟨hcol.1, hcol.2.1, hcol.2.2⟩)
      · rw [List.map_append]
        rw [List.nodup_append]
        refine ⟨hnd, by simp, ?_⟩
        intro x hx
        simp only [List.map_cons, List.map_nil, List.mem_singleton]
        intro hxeq
        rw [List.mem_map] at hx
        obtain ⟨q, hq, hqid⟩ := hx
        rw [Bool.not_eq_true] at hany
        have := List.any_eq_false.mp hany q hq
        apply this
        rw [beq_iff_eq, ← hxeq, hqid]

theorem slotInv_runOp {store : List SlotRow} (h : SlotInv store) (op : SlotOp) :
    SlotInv (runOp store op) := by
  cases op with
  | opSet u a inp now ms =>
    cases hs : SlotDB.set u a inp now ms store with
    | none => simpa [runOp, hs] using h
    | some out =>
      have := slotInv_set h (show SlotDB.set u a inp now ms store = some (out.1, out.2) by
        rw [hs])
      simpa [runOp, hs] using this
  | opDelete u a k => exact slotInv_filter _ h
  | opClean u a now => exact slotInv_filter _ h

/-- Every state reachable by a sequence of SlotDB operations from the empty
table satisfies the uniqueness invariant. -/
theorem slotInv_runOps (ops : List SlotOp) : SlotInv (runOps ops) := by
  have hgen : ∀ (l : List SlotOp) (store : List SlotRow), SlotInv store →
      SlotInv (l.foldl runOp store) := by
    intro l
    induction l with
    | nil => intro store h; exact h
    | cons op rest ih =>
      intro store h
      exact ih (runOp store op) (slotInv_runOp h op)
  exact hgen ops [] ⟨List.Pairwise.nil, List.nodup_nil⟩

theorem keyDistinct_symm : Symmetric KeyDistinct := by
  intro r q h hc
  exact h ⟨hc.1.symm, hc.2.1.symm, hc.2.2.symm⟩

/-- C2: for every scope pair and key, at most one live slot row exists for
`(user, agent, key)` after any sequence of SlotDB operations, and every
successful `set` for that triple either finds the unique existing row and
increments exactly its version by 1 — replacing the value (as its JSON
encoding), setting `updated_at` to now, keeping id and `created_at`, and
leaving every other row of the table unchanged — or, when no row with that
triple exists, appends a fresh row with version 1. -/
theorem slotdb_unique_row_and_version_increment (ops : List SlotOp) :
    (runOps ops).Pairwise KeyDistinct ∧
    (∀ u a inp now nowMs slot st',
      SlotDB.set u a inp now nowMs (runOps ops) = some (slot, st') →
      ((∃ r ∈ runOps ops, SameKey u a inp.key r ∧
          (∀ q ∈ runOps ops, SameKey u a inp.key q → q = r) ∧
          slot.id = r.id ∧ slot.version = r.version + 1 ∧
          slot.value = jsonStringify inp.value ∧ slot.updated_at = now ∧
          slot.created_at = r.created_at ∧ slot.key = r.key ∧
          List.Perm st' (slot :: (runOps ops).erase r)) ∨
       ((∀ r ∈ runOps ops, ¬ SameKey u a inp.key r) ∧
          slot.version = 1 ∧ slot.key = inp.key ∧ slot.scope_user_id = u ∧
          slot.scope_agent_id = a ∧ slot.value = jsonStringify inp.value ∧
          slot.updated_at = now ∧ slot.created_at = now ∧
          st' = runOps ops ++ [slot]))) := by
  have hinv := slotInv_runOps ops
  refine ⟨hinv.1, ?_⟩
  intro u a inp now nowMs slot st' hs
  cases hfind : (runOps ops).find? (keyMatch u a inp.key) with
  | some existing =>
    left
    simp only [SlotDB.set, hfind] at hs
    split at hs
    · exact absurd hs (by simp)
    · simp only [Option.some.injEq, Prod.mk.injEq] at hs
      obtain ⟨hslot, hst⟩ := hs
      have hmem : existing ∈ runOps ops := List.mem_of_find?_eq_some hfind
      have hkey : SameKey u a inp.key existing :=
        keyMatch_iff.1 (List.find?_some hfind)
      refine ⟨existing, hmem, hkey, ?_, ?_, ?_, ?_, ?_, ?_, ?_, ?_⟩
      · intro q hq hqkey
        by_contra hne
        exact hinv.1.forall keyDistinct_symm hq hmem hne
          ⟨hqkey.1.trans hkey.1.symm, hqkey.2.1.trans hkey.2.1.symm,
           hqkey.2.2.trans hkey.2.2.symm⟩
      · rw [← hslot]
      · rw [← hslot]
      · rw [← hslot]
      · rw [← hslot]
      · rw [← hslot]
      · rw [← hslot]
      · rw [← hst, ← hslot]
        have hperm := map_replace_perm
          (fun (q : SlotRow) => if q.id == existing.id then
            { q with
              category := match inp.category with
                | some c => if c = "" then inferCategory inp.key else c
                | none => inferCategory inp.key
              value := jsonStringify inp.value
              source := match inp.source with
                | some s => if s = "" then "tool" else s
                | none => "tool"
              confidence := inp.confidence.getD 1
              version := q.version + 1
              updated_at := now
              expires_at := match inp.expires_at with
                | some e => if e = "" then none else some e
                | none => none } else q)
          hinv.2 hmem ?_
        · simpa using hperm
        · intro q hqid
          simp [beq_eq_false_iff_ne.2 hqid]
  | none =>
    right
    simp only [SlotDB.set, hfind] at hs
    split at hs
    · exact absurd hs (by simp)
    · simp only [Option.some.injEq, Prod.mk.injEq] at hs
      obtain ⟨hslot, hst⟩ := hs
      have hno : ∀ r ∈ runOps ops, ¬ SameKey u a inp.key r := by
        intro r hr hkey
        exact (List.find?_eq_none.1 hfind r hr) (keyMatch_iff.2 hkey)
      refine ⟨hno, ?_, ?_, ?_, ?_, ?_, ?_, ?_, ?_⟩
      any_goals rw [← hslot]
      rw [← hst]

/-- Concrete slot row produced by the witness `set` below. -/
def slotRowW : SlotRow :=
  { id := "profile:profile.name:5"
    scope_user_id := "default"
    scope_agent_id := "main"
    category := "profile"
    key := "profile.name"
    value := "\"MrC\""
    source := "tool"
    confidence := 1
    version := 1
    created_at := "2026-01-01T00:00:00.000Z"
    updated_at := "2026-01-01T00:00:00.000Z"
    expires_at := none }

/-- Witness for C2: a concrete successful `set` on the empty reachable table
inserts a fresh row with version 1. -/
theorem slotdb_unique_row_and_version_increment_witness :
    (SlotDB.set "default" "main" ⟨"profile.name", .jstr "MrC", none, none, none, none⟩
        "2026-01-01T00:00:00.000Z" 5 (runOps []) = some (slotRowW, [slotRowW])) ∧
    ((∃ r ∈ runOps [], SameKey "default" "main" "profile.name" r ∧
        (∀ q ∈ runOps [], SameKey "default" "main" "profile.name" q → q = r) ∧
        slotRowW.id = r.id ∧ slotRowW.version = r.version + 1 ∧
        slotRowW.value = jsonStringify (.jstr "MrC") ∧
        slotRowW.updated_at = "2026-01-01T00:00:00.000Z" ∧
        slotRowW.created_at = r.created_at ∧ slotRowW.key = r.key ∧
        List.Perm [slotRowW] (slotRowW :: (runOps []).erase r)) ∨
     ((∀ r ∈ runOps [], ¬ SameKey "default" "main" "profile.name" r) ∧
        slotRowW.version = 1 ∧ slotRowW.key = "profile.name" ∧
        slotRowW.scope_user_id = "default" ∧ slotRowW.scope_agent_id = "main" ∧
        slotRowW.value = jsonStringify (.jstr "MrC") ∧
        slotRowW.updated_at = "2026-01-01T00:00:00.000Z" ∧
        slotRowW.created_at = "2026-01-01T00:00:00.000Z" ∧
        [slotRowW] = runOps [] ++ [slotRowW])) :=
  ⟨by decide,
   (slotdb_unique_row_and_version_increment []).2 "default" "main"
     ⟨"profile.name", .jstr "MrC", none, none, none, none⟩
     "2026-01-01T00:00:00.000Z" 5 slotRowW [slotRowW] (by decide)⟩

theorem cleanExpired_no_expired {u a now : String} {store : List SlotRow} :
    ∀ r ∈ SlotDB.cleanExpired u a now store,
      r.scope_user_id = u → r.scope_agent_id = a →
      ∀ e, r.expires_at = some e → strLt e now = false := by
  intro r hr h1 h2 e he
  rw [SlotDB.cleanExpired, List.mem_filter] at hr
  have h2' := hr.2
  simp only [scopeMatch, h1, h2, he, beq_self_eq_true, Bool.and_self, Bool.true_and,
    Bool.not_eq_true'] at h2'
  exact h2'

theorem cleanExpired_sublist {u a now : String} {store : List SlotRow} :
    (SlotDB.cleanExpired u a now store).Sublist store :=
  List.filter_sublist store

/-- C4: every SlotDB read (`get` by key, by category, all, `list`,
`getCurrentState`) first removes the scope's rows whose `expires_at` is
non-null and earlier than `now`; immediately after the read no expired row
of that scope is observable in the table it leaves behind, and a `get` by
key of an expired slot returns `null` with the row removed. -/
theorem slotdb_reads_remove_expired (store : List SlotRow) (u a now : String) :
    (∀ key, ∀ r ∈ (SlotDB.getByKey u a key now store).2,
        r.scope_user_id = u → r.scope_agent_id = a →
        ∀ e, r.expires_at = some e → strLt e now = false) ∧
    (∀ cat, ∀ r ∈ (SlotDB.getByCategory u a cat now store).2,
        r.scope_user_id = u → r.scope_agent_id = a →
        ∀ e, r.expires_at = some e → strLt e now = false) ∧
    (∀ r ∈ (SlotDB.getAll u a now store).2,
        r.scope_user_id = u → r.scope_agent_id = a →
        ∀ e, r.expires_at = some e → strLt e now = false) ∧
    (∀ r ∈ (SlotDB.list u a now store).2,
        r.scope_user_id = u → r.scope_agent_id = a →
        ∀ e, r.expires_at = some e → strLt e now = false) ∧
    (∀ r ∈ (SlotDB.getCurrentState u a now store).2,
        r.scope_user_id = u → r.scope_agent_id = a →
        ∀ e, r.expires_at = some e → strLt e now = false) ∧
    (∀ key r e, store.Pairwise KeyDistinct → r ∈ store → SameKey u a key r →
        r.expires_at = some e → strLt e now = true →
        (SlotDB.getByKey u a key now store).1 = none ∧
        r ∉ (SlotDB.getByKey u a key now store).2) := by
  refine ⟨fun _ => cleanExpired_no_expired, fun _ => cleanExpired_no_expired,
    cleanExpired_no_expired, cleanExpired_no_expired, cleanExpired_no_expired,
    ?_⟩
  intro key r e hpw hr hkey hexp hlt
  have hprednot : ¬(r ∈ SlotDB.cleanExpired u a now store) := by
    rw [SlotDB.cleanExpired, List.mem_filter]
    rintro ⟨-, hp⟩
    simp [scopeMatch, hkey.1, hkey.2.1, hexp, hlt] at hp
  constructor
  · rw [SlotDB.getByKey]
    simp only
    rw [List.find?_eq_none]
    intro q hq hmatch
    have hqs : SameKey u a key q := keyMatch_iff.1 hmatch
    have hqstore : q ∈ store := cleanExpired_sublist.subset hq
    by_cases hqr : q = r
    · exact hprednot (hqr ▸ hq)
    · exact hpw.forall keyDistinct_symm hqstore hr hqr
        ⟨hqs.1.trans hkey.1.symm, hqs.2.1.trans hkey.2.1.symm,
         hqs.2.2.trans hkey.2.2.symm⟩
  · exact hprednot

/-- Concrete expired row for the C4 witness. -/
def expiredRowW : SlotRow :=
  { id := "custom:temp.x:1"
    scope_user_id := "default"
    scope_agent_id := "main"
    category := "custom"
    key := "temp.x"
    value := "\"gone\""
    source := "tool"
    confidence := 1
    version := 1
    created_at := "2026-01-01T00:00:00.000Z"
    updated_at := "2026-01-01T00:00:00.000Z"
    expires_at := some "2026-01-02T00:00:00.000Z" }

/-- Witness for C4: a concrete `get` by key of an expired slot returns none
and removes the row. -/
theorem slotdb_reads_remove_expired_witness :
    ([expiredRowW].Pairwise KeyDistinct ∧ expiredRowW ∈ [expiredRowW] ∧
      SameKey "default" "main" "temp.x" expiredRowW ∧
      expiredRowW.expires_at = some "2026-01-02T00:00:00.000Z" ∧
      strLt "2026-01-02T00:00:00.000Z" "2026-01-03T00:00:00.000Z" = true) ∧
    ((SlotDB.getByKey "default" "main" "temp.x" "2026-01-03T00:00:00.000Z"
        [expiredRowW]).1 = none ∧
      expiredRowW ∉ (SlotDB.getByKey "default" "main" "temp.x"
        "2026-01-03T00:00:00.000Z" [expiredRowW]).2) :=
  ⟨⟨List.pairwise_singleton _ _, List.mem_singleton_self _,
    ⟨rfl, rfl, rfl⟩, rfl, by decide⟩,
   (slotdb_reads_remove_expired [expiredRowW] "default" "main"
      "2026-01-03T00:00:00.000Z").2.2.2.2.2 "temp.x" expiredRowW
      "2026-01-02T00:00:00.000Z" (List.pairwise_singleton _ _)
      (List.mem_singleton_self _) ⟨rfl, rfl, rfl⟩ rfl (by decide)⟩

theorem setEntry_lookup (entries : List (String × String)) (k v k' : String) :
    alistGet (setEntry entries k v) k' =
      if k' = k then some v else alistGet entries k' := by
  induction entries with
  | nil => by_cases h : k' = k <;> simp [setEntry, alistGet, h]
  | cons e rest ih =>
    obtain ⟨k0, v0⟩ := e
    by_cases h0 : k0 = k
    · subst h0
      by_cases h : k' = k0 <;> simp [setEntry, alistGet, h]
    · by_cases h : k' = k0
      · subst h
        simp [setEntry, h0, alistGet, if_neg (fun h' : k' = k => h0 h')]
      · simp [setEntry, h0, alistGet, h, ih]

theorem stateInsert_lookup (st : CurrentState) (cat k v cat' k' : String) :
    stateLookup (stateInsert st cat k v) cat' k' =
      if cat' = cat ∧ k' = k then some v else stateLookup st cat' k' := by
  induction st with
  | nil =>
    by_cases h1 : cat' = cat
    · subst h1
      by_cases h2 : k' = k <;>
        simp [stateInsert, stateLookup, alistGet, h2]
    · simp [stateInsert, stateLookup, alistGet, h1,
        if_neg (fun h : cat' = cat ∧ k' = k => h1 h.1)]
  | cons e rest ih =>
    obtain ⟨c, entries⟩ := e
    by_cases hc : c = cat
    · subst hc
      by_cases h1 : cat' = c
      · subst h1
        simp [stateInsert, stateLookup, alistGet, setEntry_lookup]
      · simp [stateInsert, stateLookup, alistGet, h1,
          if_neg (fun h : cat' = c ∧ k' = k => h1 h.1)]
    · by_cases h1 : cat' = c
      · subst h1
        simp [stateInsert, stateLookup, alistGet, hc, Ne.symm hc,
          if_neg (fun h : cat' = cat ∧ k' = k => hc h.1)]
      · simp only [stateInsert, if_neg hc]
        simp only [stateLookup, alistGet, if_neg h1] at ih ⊢
        exact ih

/-- The current-state fold leaves a `(category, key)` cell untouched when no
row writes it. -/
theorem foldl_stateInsert_untouched (rows : List SlotRow) (st : CurrentState)
    (cat k : String)
    (h : ∀ q ∈ rows, ¬(q.category = cat ∧ q.key = k)) :
    stateLookup (rows.foldl (fun st r => stateInsert st r.category r.key r.value) st)
      cat k = stateLookup st cat k := by
  induction rows generalizing st with
  | nil => rfl
  | cons a t ih =>
    have ha := h a (List.mem_cons_self a t)
    have hrest : ∀ q ∈ t, ¬(q.category = cat ∧ q.key = k) :=
      fun q hq => h q (List.mem_cons_of_mem a hq)
    simp only [List.foldl_cons]
    rw [ih _ hrest, stateInsert_lookup]
    rw [if_neg (fun hck => ha ⟨hck.1.symm, hck.2.symm⟩)]

/-- Rows with pairwise-distinct `(category, key)` are all retrievable from
the current-state fold. -/
theorem foldl_stateInsert_mem (rows : List SlotRow) (st : CurrentState)
    (hpw : rows.Pairwise (fun r q => ¬(r.category = q.category ∧ r.key = q.key))) :
    ∀ r ∈ rows,
      stateLookup (rows.foldl (fun st r => stateInsert st r.category r.key r.value) st)
        r.category r.key = some r.value := by
  induction rows generalizing st with
  | nil => intro r hr; cases hr
  | cons a t ih =>
    intro r hr
    rcases List.mem_cons.1 hr with rfl | hrt
    · simp only [List.foldl_cons]
      rw [foldl_stateInsert_untouched _ _ _ _
          (fun q hq hqr => (List.pairwise_cons.1 hpw).1 q hq ⟨hqr.1.symm, hqr.2.symm⟩),
        stateInsert_lookup, if_pos ⟨rfl, rfl⟩]
    · simp only [List.foldl_cons]
      exact ih _ (List.pairwise_cons.1 hpw).2 r hrt

/-- Every cell of the current-state fold that is not in the seed comes from a
row. -/
theorem foldl_stateInsert_source (rows : List SlotRow) (st : CurrentState)
    (cat k v : String)
    (h : stateLookup (rows.foldl (fun st r => stateInsert st r.category r.key r.value) st)
        cat k = some v) :
    (∃ r ∈ rows, r.category = cat ∧ r.key = k ∧ r.value = v) ∨
      stateLookup st cat k = some v := by
  induction rows generalizing st with
  | nil => exact Or.inr h
  | cons a t ih =>
    simp only [List.foldl_cons] at h
    rcases ih _ h with ⟨r, hr, hprops⟩ | hseed
    · exact Or.inl ⟨r, List.mem_cons_of_mem a hr, hprops⟩
    · rw [stateInsert_lookup] at hseed
      by_cases hck : cat = a.category ∧ k = a.key
      · rw [if_pos hck] at hseed
        exact Or.inl ⟨a, List.mem_cons_self a t,
          hck.1.symm, hck.2.symm, Option.some.inj hseed⟩
      · rw [if_neg hck] at hseed
        exact Or.inr hseed

/-- `key.startsWith('_')`, computed on the character list. -/
def startsWithUnderscore (s : String) : Bool :=
  match s.data with
  | [] => false
  | c :: _ => c = '_'

/-- The row survives `cleanExpired` at time `now`. -/
def LiveAt (now : String) (r : SlotRow) : Prop :=
  ∀ e, r.expires_at = some e → strLt e now = false

theorem mem_cleanExpired_iff {u a now : String} {store : List SlotRow}
    {r : SlotRow} :
    r ∈ SlotDB.cleanExpired u a now store ↔
      r ∈ store ∧ (r.scope_user_id = u → r.scope_agent_id = a → LiveAt now r) := by
  rw [SlotDB.cleanExpired, List.mem_filter]
  constructor
  · rintro ⟨hmem, hp⟩
    refine ⟨hmem, fun h1 h2 e he => ?_⟩
    simp only [scopeMatch, h1, h2, he, beq_self_eq_true, Bool.and_self,
      Bool.true_and, Bool.not_eq_true'] at hp
    exact hp
  · rintro ⟨hmem, hlive⟩
    refine ⟨hmem, ?_⟩
    by_cases h1 : r.scope_user_id = u
    · by_cases h2 : r.scope_agent_id = a
      · cases he : r.expires_at with
        | none => simp [scopeMatch, he]
        | some e => simp [scopeMatch, he, hlive h1 h2 e he]
      · simp [scopeMatch, h2]
    · simp [scopeMatch, h1]

/-- C5 (amended): `getCurrentState` returns the two-level `category → key →
value` mapping over exactly the scope's live slot rows — including every
key that begins with an underscore; no key is filtered out by this
operation (the underscore filtering happens later, in AutoRecall). -/
theorem getCurrentState_two_level_mapping (store : List SlotRow)
    (u a now : String) (hpw : store.Pairwise KeyDistinct) :
    (∀ r ∈ store, r.scope_user_id = u → r.scope_agent_id = a → LiveAt now r →
      stateLookup (SlotDB.getCurrentState u a now store).1 r.category r.key =
        some r.value) ∧
    (∀ cat k v,
      stateLookup (SlotDB.getCurrentState u a now store).1 cat k = some v →
      ∃ r ∈ store, r.category = cat ∧ r.key = k ∧ r.value = v ∧
        r.scope_user_id = u ∧ r.scope_agent_id = a ∧ LiveAt now r) := by
  have hrowsub :
      ((SlotDB.cleanExpired u a now store).filter (scopeMatch u a)).Sublist store :=
    (List.filter_sublist _).trans (List.filter_sublist _)
  have hrowpw :
      ((SlotDB.cleanExpired u a now store).filter (scopeMatch u a)).Pairwise
        (fun r q => ¬(r.category = q.category ∧ r.key = q.key)) := by
    refine ((hpw.sublist hrowsub).imp_of_mem ?_)
    intro r q hr hq hkd hcatkey
    have hrs := (scopeMatch_iff.1 (List.of_mem_filter hr))
    have hqs := (scopeMatch_iff.1 (List.of_mem_filter hq))
    exact hkd ⟨hrs.1.trans hqs.1.symm, hrs.2.trans hqs.2.symm, hcatkey.2⟩
  constructor
  · intro r hr h1 h2 hlive
    have hrclean : r ∈ SlotDB.cleanExpired u a now store :=
      mem_cleanExpired_iff.2 ⟨hr, fun _ _ => hlive⟩
    have hrrows : r ∈ (SlotDB.cleanExpired u a now store).filter (scopeMatch u a) :=
      List.mem_filter.2 ⟨hrclean, scopeMatch_iff.2 ⟨h1, h2⟩⟩
    exact foldl_stateInsert_mem _ [] hrowpw r hrrows
  · intro cat k v hlook
    rcases foldl_stateInsert_source _ [] cat k v hlook with ⟨r, hr, hcat, hk, hv⟩ | hseed
    · have hrclean := List.mem_of_mem_filter hr
      have hscope := scopeMatch_iff.1 (List.of_mem_filter hr)
      have hrs := mem_cleanExpired_iff.1 hrclean
      exact ⟨r, hrs.1, hcat, hk, hv, hscope.1, hscope.2,
        hrs.2 hscope.1 hscope.2⟩
    · simp [stateLookup, alistGet] at hseed

/-- Concrete internal-bookkeeping row (underscore key) for C5. -/
def underscoreRowW : SlotRow :=
  { id := "custom:_autocapture_hash:2"
    scope_user_id := "default"
    scope_agent_id := "main"
    category := "custom"
    key := "_autocapture_hash"
    value := "\"abc123\""
    source := "auto_capture"
    confidence := 1
    version := 1
    created_at := "2026-01-01T00:00:00.000Z"
    updated_at := "2026-01-01T00:00:00.000Z"
    expires_at := none }

/-- Counterexample to C5 as stated: `getCurrentState` does NOT omit keys
beginning with an underscore — a stored `_autocapture_hash` slot appears in
the returned mapping. -/
theorem getCurrentState_keeps_underscore_keys_cex :
    startsWithUnderscore "_autocapture_hash" = true ∧
    stateLookup (SlotDB.getCurrentState "default" "main"
        "2026-01-03T00:00:00.000Z" [underscoreRowW]).1
      "custom" "_autocapture_hash" = some "\"abc123\"" := by
  constructor
  · decide
  · decide

/-- Witness for C5 (amended): the witness row of the C2 scenario is exposed
by `getCurrentState` under its category and key. -/
theorem getCurrentState_two_level_mapping_witness :
    ([slotRowW].Pairwise KeyDistinct ∧ slotRowW ∈ [slotRowW] ∧
      slotRowW.scope_user_id = "default" ∧ slotRowW.scope_agent_id = "main" ∧
      LiveAt "2026-01-03T00:00:00.000Z" slotRowW) ∧
    stateLookup (SlotDB.getCurrentState "default" "main"
        "2026-01-03T00:00:00.000Z" [slotRowW]).1
      slotRowW.category slotRowW.key = some slotRowW.value :=
  ⟨⟨List.pairwise_singleton _ _, List.mem_singleton_self _, rfl, rfl,
    fun e he => by cases he⟩,
   (getCurrentState_two_level_mapping [slotRowW] "default" "main"
      "2026-01-03T00:00:00.000Z" (List.pairwise_singleton _ _)).1 slotRowW
      (List.mem_singleton_self _) rfl rfl (fun e he => by cases he)⟩

/-! ## EmbedGateway (src/services/embedding.ts, `EmbeddingClient.embed`)

The remote call is modelled by its observable outcome: the timeout
controller fired (`AbortError`), the fetch rejected with a network error,
the response had a non-ok HTTP status, or a JSON body arrived whose
`embedding` field is or is not an array.  The vector itself is opaque and
passes through untouched. -/

/-- Outcome of the single `fetch` performed by `embed`. -/
inductive EmbedOutcome where
  | timeout : EmbedOutcome
  | netError (msg : String) : EmbedOutcome
  | httpError (status : Nat) (body : String) : EmbedOutcome
  | ok (embedding : Option (List Int)) : EmbedOutcome
deriving DecidableEq

/-- `EmbeddingClient.embed` (embedding.ts lines 18-61): a non-ok status
throws `Embedding API error: <status>`; a body without an `embedding` array
throws `Invalid embedding response format`; an abort becomes `Embedding
request timed out`; other fetch errors are rethrown.  No branch returns a
substitute vector. -/
def EmbeddingClient.embed : EmbedOutcome → Except String (List Int)
  | .timeout => .error "Embedding request timed out"
  | .netError msg => .error msg
  | .httpError status _ => .error ("Embedding API error: " ++ toString status)
  | .ok (some v) => .ok v
  | .ok none => .error "Invalid embedding response format"

/-- Counterexample to C6 as stated: on an HTTP failure `embed` does not
return a hash-based pseudo-embedding — it propagates an error to the
caller. -/
theorem embed_http_error_propagates_cex :
    EmbeddingClient.embed (.httpError 500 "oops") =
      Except.error "Embedding API error: 500" ∧
    ¬∃ v, EmbeddingClient.embed (.httpError 500 "oops") = Except.ok v := by
  constructor
  · rfl
  · rintro ⟨v, hv⟩
    cases hv

/-- C6 (amended): `embed` tries the remote service once and returns a vector
exactly when the response is ok and carries an `embedding` array — the
array itself; every failure (HTTP error status, invalid response shape,
timeout, network error) is propagated as an error to the caller, with no
deterministic hash fallback anywhere in the adapter. -/
theorem embed_no_fallback :
    ∀ (r : EmbedOutcome),
      (∀ v, EmbeddingClient.embed r = Except.ok v ↔ r = .ok (some v)) ∧
      ((∀ v, r ≠ .ok (some v)) → ∃ msg, EmbeddingClient.embed r = Except.error msg) := by
  intro r
  constructor
  · intro v
    constructor
    · intro h
      cases r with
      | timeout => cases h
      | netError msg => cases h
      | httpError s b => cases h
      | ok emb =>
        cases emb with
        | none => cases h
        | some w => cases h; rfl
    · rintro rfl
      rfl
  · intro hnot
    cases r with
    | timeout => exact ⟨_, rfl⟩
    | netError msg => exact ⟨_, rfl⟩
    | httpError s b => exact ⟨_, rfl⟩
    | ok emb =>
      cases emb with
      | none => exact ⟨_, rfl⟩
      | some w => exact absurd rfl (hnot w)

/-- Witness for C6 (amended): a concrete failing outcome yields an error and
a concrete ok outcome yields exactly the remote's vector. -/
theorem embed_no_fallback_witness :
    ((∀ v, EmbedOutcome.timeout ≠ EmbedOutcome.ok (some v)) →
      ∃ msg, EmbeddingClient.embed .timeout = Except.error msg) ∧
    (EmbeddingClient.embed (.ok (some [3, 1, 4])) = Except.ok [3, 1, 4] ↔
      EmbedOutcome.ok (some [3, 1, 4]) = EmbedOutcome.ok (some [3, 1, 4])) :=
  ⟨(embed_no_fallback .timeout).2, (embed_no_fallback (.ok (some [3, 1, 4]))).1 [3, 1, 4]⟩

/-- C7 (code bug): `extractMessageText` can emit the forbidden substring
`[object Object]`.  For the JSON-serialisable content
`[{"type": "tool_use", "name": {}}]` the `tool_use` branch interpolates the
object-valued `name` with JavaScript string coercion
(`[Tool: ${block.name || "unknown"}]`), producing `[Tool: [object Object]]`
— contradicting both the claim and the function's own comment that it must
never return `[object Object]`. -/
theorem extractMessageText_tool_use_object_name_bug :
    extractMessageText
        (.jarr [.jobj [("type", .jstr "tool_use"), ("name", .jobj [])]]) =
      "[Tool: [object Object]]" ∧
    ("[object Object]".data <:+:
      (extractMessageText
        (.jarr [.jobj [("type", .jstr "tool_use"), ("name", .jobj [])]])).data) := by
  constructor
  · rfl
  · decide

/-! ## ContextWindow (src/hooks/auto-capture.ts lines 39-221)

`selectMessagesWithinBudget` and its helpers.  The `stats` record the
source returns alongside the selection only feeds `console.log` calls and
is not modelled. -/

/-- The `role` field of a conversation message. -/
inductive MsgRole where
  | user : MsgRole
  | assistant : MsgRole
  | system : MsgRole
deriving DecidableEq, Repr

/-- A conversation message as consumed by the auto-capture hook. -/
structure ConversationMessage where
  role : MsgRole
  content : JValue

/-- `ContextWindowConfig` (auto-capture.ts lines 47-51). -/
structure ContextWindowConfig where
  maxConversationTokens : Nat
  tokenEstimateDivisor : Nat
  absoluteMaxMessages : Nat

/-- The role rendered into the estimated line. -/
def roleString : MsgRole → String
  | .user => "user"
  | .assistant => "assistant"
  | .system => "system"

/-- `estimateTokens` (auto-capture.ts lines 168-170): `Math.ceil(text.length
/ divisor)`, here as natural ceiling division (the plugin always passes the
positive divisor 4). -/
def estimateTokens (text : String) (divisor : Nat) : Nat :=
  (text.length + divisor - 1) / divisor

/-- The string whose length is estimated for a message:
`role + ": " + extractMessageText(content)`. -/
def msgText (m : ConversationMessage) : String :=
  roleString m.role ++ ": " ++ extractMessageText m.content

/-- Estimated tokens of one message under a configuration. -/
def msgTokens (cfg : ContextWindowConfig) (m : ConversationMessage) : Nat :=
  estimateTokens (msgText m) cfg.tokenEstimateDivisor

/-- The filter step: keep only user and assistant messages. -/
def isUserOrAssistant (m : ConversationMessage) : Bool :=
  m.role == MsgRole.user || m.role == MsgRole.assistant

/-- JavaScript `arr.slice(-k)`: the last `k` elements — except that
`slice(-0)` is `slice(0)`, the whole array. -/
def sliceLast {α : Type} (k : Nat) (l : List α) : List α :=
  if k = 0 then l else l.drop (l.length - k)

/-- The reverse-accumulation loop (auto-capture.ts lines 194-207) over the
already-reversed message list: stop at the first message whose estimate
would push the running total over the budget. -/
def selectRev (cfg : ContextWindowConfig) :
    List ConversationMessage → Nat → List ConversationMessage
  | [], _ => []
  | m :: rest, used =>
    let t := msgTokens cfg m
    if cfg.maxConversationTokens < used + t then []
    else m :: selectRev cfg rest (used + t)

/-- `selectMessagesWithinBudget` (auto-capture.ts lines 176-221): filter to
user/assistant, cap at the most recent `absoluteMaxMessages`, then
accumulate from newest to oldest within the token budget, returning the
selection in chronological order. -/
def selectMessagesWithinBudget (messages : List ConversationMessage)
    (cfg : ContextWindowConfig) : List ConversationMessage :=
  let filtered := messages.filter isUserOrAssistant
  let capped := if cfg.absoluteMaxMessages < filtered.length then
    sliceLast cfg.absoluteMaxMessages filtered else filtered
  (selectRev cfg capped.reverse 0).reverse

theorem selectRev_isPrefix (cfg : ContextWindowConfig) :
    ∀ (l : List ConversationMessage) (used : Nat),
      (selectRev cfg l used) <+: l := by
  intro l
  induction l with
  | nil => intro used; exact List.nil_prefix
  | cons m rest ih =>
    intro used
    rw [selectRev]
    split
    · exact List.nil_prefix
    · obtain ⟨tl, htl⟩ := ih (used + msgTokens cfg m)
      exact ⟨tl, by rw [List.cons_append, htl]⟩

theorem selectRev_sum (cfg : ContextWindowConfig) :
    ∀ (l : List ConversationMessage) (used : Nat),
      used ≤ cfg.maxConversationTokens →
      used + ((selectRev cfg l used).map (msgTokens cfg)).sum ≤
        cfg.maxConversationTokens := by
  intro l
  induction l with
  | nil => intro used h; simpa [selectRev] using h
  | cons m rest ih =>
    intro used h
    rw [selectRev]
    split
    · simpa using h
    · rename_i hle
      have hle' : used + msgTokens cfg m ≤ cfg.maxConversationTokens :=
        Nat.not_lt.1 hle
      have := ih (used + msgTokens cfg m) hle'
      simp only [List.map_cons, List.sum_cons]
      omega

theorem sliceLast_sublist {α : Type} (k : Nat) (l : List α) :
    (sliceLast k l).Sublist l := by
  rw [sliceLast]
  split
  · exact List.Sublist.refl l
  · exact List.drop_sublist _ l

/-- C8 (amended): for every input message list and every configuration whose
`absoluteMaxMessages` is at least 1, the selection contains only
user/assistant messages, is a sublist of the input (chronological order
preserved), has at most `absoluteMaxMessages` messages, and its summed
per-message token estimate is at most `maxConversationTokens`.  (At
`absoluteMaxMessages = 0` the count bound fails; see the counterexample.) -/
theorem selectMessages_within_budget_props (messages : List ConversationMessage)
    (cfg : ContextWindowConfig) (hmax : 1 ≤ cfg.absoluteMaxMessages) :
    (∀ m ∈ selectMessagesWithinBudget messages cfg,
        m.role = MsgRole.user ∨ m.role = MsgRole.assistant) ∧
    (selectMessagesWithinBudget messages cfg).Sublist messages ∧
    (selectMessagesWithinBudget messages cfg).length ≤ cfg.absoluteMaxMessages ∧
    ((selectMessagesWithinBudget messages cfg).map (msgTokens cfg)).sum ≤
      cfg.maxConversationTokens := by
  set filtered := messages.filter isUserOrAssistant with hfiltered
  set capped := if cfg.absoluteMaxMessages < filtered.length then
    sliceLast cfg.absoluteMaxMessages filtered else filtered with hcapped
  have hseldef : selectMessagesWithinBudget messages cfg =
      (selectRev cfg capped.reverse 0).reverse := rfl
  have hcapped_sub : capped.Sublist filtered := by
    rw [hcapped]
    split
    · exact sliceLast_sublist _ _
    · exact List.Sublist.refl _
  have hcapped_len : capped.length ≤ cfg.absoluteMaxMessages := by
    rw [hcapped]
    split
    · rename_i hlt
      rw [sliceLast]
      rw [if_neg (by omega)]
      rw [List.length_drop]
      omega
    · rename_i hnlt
      omega
  have hsel_suffix : (selectMessagesWithinBudget messages cfg) <:+ capped := by
    rw [hseldef]
    have hpre := selectRev_isPrefix cfg capped.reverse 0
    have h2 : (selectRev cfg capped.reverse 0).reverse <:+ capped.reverse.reverse :=
      List.reverse_suffix.2 hpre
    simpa using h2
  have hsel_sub_capped : (selectMessagesWithinBudget messages cfg).Sublist capped :=
    hsel_suffix.sublist
  have hsel_sub_filtered := hsel_sub_capped.trans hcapped_sub
  refine ⟨?_, ?_, ?_, ?_⟩
  · intro m hm
    have hmf : m ∈ filtered := hsel_sub_filtered.subset hm
    rw [hfiltered, List.mem_filter] at hmf
    have := hmf.2
    simp only [isUserOrAssistant, Bool.or_eq_true, beq_iff_eq] at this
    exact this
  · exact hsel_sub_filtered.trans (List.filter_sublist messages)
  · exact le_trans hsel_sub_capped.length_le hcapped_len
  · have hs := selectRev_sum cfg capped.reverse 0 (Nat.zero_le _)
    rw [hseldef, List.map_reverse, List.sum_reverse]
    omega

/-- Counterexample to C8 as stated: with `absoluteMaxMessages = 0` the
source's `filtered.slice(-0)` keeps the whole list (JavaScript `-0` is
`0`), so the selection can exceed the configured message cap. -/
theorem selectMessages_absoluteMax_zero_cex :
    (selectMessagesWithinBudget [⟨MsgRole.user, .jstr "hi"⟩]
        ⟨12000, 4, 0⟩).length = 1 ∧
    ¬((selectMessagesWithinBudget [⟨MsgRole.user, .jstr "hi"⟩]
        ⟨12000, 4, 0⟩).length ≤
      (ContextWindowConfig.mk 12000 4 0).absoluteMaxMessages) := by
  constructor
  · rfl
  · decide

/-- Witness for C8 (amended) at the default configuration. -/
theorem selectMessages_within_budget_props_witness :
    (1 ≤ (ContextWindowConfig.mk 12000 4 200).absoluteMaxMessages) ∧
    ((∀ m ∈ selectMessagesWithinBudget [⟨MsgRole.user, .jstr "hi"⟩]
          ⟨12000, 4, 200⟩,
        m.role = MsgRole.user ∨ m.role = MsgRole.assistant) ∧
      (selectMessagesWithinBudget [⟨MsgRole.user, .jstr "hi"⟩]
          ⟨12000, 4, 200⟩).Sublist [⟨MsgRole.user, .jstr "hi"⟩] ∧
      (selectMessagesWithinBudget [⟨MsgRole.user, .jstr "hi"⟩]
          ⟨12000, 4, 200⟩).length ≤ 200 ∧
      ((selectMessagesWithinBudget [⟨MsgRole.user, .jstr "hi"⟩]
          ⟨12000, 4, 200⟩).map (msgTokens ⟨12000, 4, 200⟩)).sum ≤ 12000) :=
  ⟨by decide,
   selectMessages_within_budget_props [⟨MsgRole.user, .jstr "hi"⟩]
     ⟨12000, 4, 200⟩ (by decide)⟩

/-! ## GraphDB (src/db/graph-db.ts)

Entity and relationship rows, `deleteEntity` (cascade) and
`createRelationship` (upsert on the UNIQUE source/target/type triple). -/

/-- A row of the `entities` table. -/
structure EntityRow where
  id : String
  name : String
  type : String
  properties : String
  scope_user_id : String
  scope_agent_id : String
  created_at : String
  updated_at : String
deriving DecidableEq, Repr

/-- A row of the `relationships` table. -/
structure RelationshipRow where
  id : String
  source_entity_id : String
  target_entity_id : String
  relation_type : String
  weight : Rat
  properties : String
  scope_user_id : String
  scope_agent_id : String
  created_at : String
deriving DecidableEq, Repr

/-- The two graph tables. -/
structure GraphState where
  entities : List EntityRow
  relationships : List RelationshipRow
deriving DecidableEq, Repr

/-- `RelationshipCreateInput` (graph-db.ts lines 66-72). -/
structure RelationshipCreateInput where
  source_entity_id : String
  target_entity_id : String
  relation_type : String
  weight : Option Rat
  properties : Option JValue

/-- Edge is incident on the entity and belongs to the scope (the WHERE
clause of the cascade DELETE in `deleteEntity`). -/
def relTouches (u a id : String) (r : RelationshipRow) : Bool :=
  (r.source_entity_id == id || r.target_entity_id == id) &&
    r.scope_user_id == u && r.scope_agent_id == a

/-- Entity row targeted by `deleteEntity`. -/
def entityIs (u a id : String) (e : EntityRow) : Bool :=
  e.id == id && e.scope_user_id == u && e.scope_agent_id == a

/-- `GraphDB.deleteEntity` (graph-db.ts lines 230-245): first delete every
relationship of the scope whose source or target is the entity, then the
entity row itself; return whether an entity row was removed. -/
def GraphDB.deleteEntity (u a id : String) (g : GraphState) : Bool × GraphState :=
  let rels := g.relationships.filter (fun r => !(relTouches u a id r))
  let ents := g.entities.filter (fun e => !(entityIs u a id e))
  (g.entities.any (entityIs u a id), ⟨ents, rels⟩)

/-- Edge row carries the `(source_entity_id, target_entity_id,
relation_type)` triple of the input (the UNIQUE constraint's columns). -/
def tripleMatch (inp : RelationshipCreateInput) (r : RelationshipRow) : Bool :=
  r.source_entity_id == inp.source_entity_id &&
    r.target_entity_id == inp.target_entity_id &&
    r.relation_type == inp.relation_type

/-- `GraphDB.createRelationship` (graph-db.ts lines 251-290): INSERT with a
freshly generated id; `ON CONFLICT(source_entity_id, target_entity_id,
relation_type) DO UPDATE` replaces `weight`, `properties` and `created_at`
of the existing row (keeping its id and scope).  The returned
`Relationship` object is built from the input with the fresh id, whether or
not the conflict branch ran. -/
def GraphDB.createRelationship (u a : String) (inp : RelationshipCreateInput)
    (newId now : String) (g : GraphState) : RelationshipRow × GraphState :=
  let weight := inp.weight.getD 1
  let propertiesJson := jsonStringify (inp.properties.getD (.jobj []))
  let ret : RelationshipRow :=
    { id := newId
      source_entity_id := inp.source_entity_id
      target_entity_id := inp.target_entity_id
      relation_type := inp.relation_type
      weight := weight
      properties := propertiesJson
      scope_user_id := u
      scope_agent_id := a
      created_at := now }
  match g.relationships.find? (tripleMatch inp) with
  | some r0 =>
    (ret, ⟨g.entities, g.relationships.map (fun r => if r.id == r0.id then
      { r with
        weight := weight
        properties := propertiesJson
        created_at := now } else r)⟩)
  | none => (ret, ⟨g.entities, g.relationships ++ [ret]⟩)

/-- C9: `deleteEntity(e)` removes exactly the entity row of `e` in the call's
scope and every relationship row of the same scope whose source or target
is `e`; every other row of both tables is untouched (the survivors are the
original tables filtered in order), and the call returns true if and only
if an entity row was removed. -/
theorem deleteEntity_cascade_exact (g : GraphState) (u a id : String) :
    (∀ e, e ∈ (GraphDB.deleteEntity u a id g).2.entities ↔
      e ∈ g.entities ∧
        ¬(e.id = id ∧ e.scope_user_id = u ∧ e.scope_agent_id = a)) ∧
    (∀ r, r ∈ (GraphDB.deleteEntity u a id g).2.relationships ↔
      r ∈ g.relationships ∧
        ¬((r.source_entity_id = id ∨ r.target_entity_id = id) ∧
          r.scope_user_id = u ∧ r.scope_agent_id = a)) ∧
    (GraphDB.deleteEntity u a id g).2.entities.Sublist g.entities ∧
    (GraphDB.deleteEntity u a id g).2.relationships.Sublist g.relationships ∧
    ((GraphDB.deleteEntity u a id g).1 = true ↔
      ∃ e ∈ g.entities, e.id = id ∧ e.scope_user_id = u ∧ e.scope_agent_id = a) := by
  refine ⟨?_, ?_, List.filter_sublist _, List.filter_sublist _, ?_⟩
  · intro e
    rw [GraphDB.deleteEntity]
    simp only [List.mem_filter, Bool.not_eq_true']
    constructor
    · rintro ⟨hmem, hp⟩
      refine ⟨hmem, fun hc => ?_⟩
      rw [show entityIs u a id e = true by
        simp [entityIs, hc.1, hc.2.1, hc.2.2]] at hp
      cases hp
    · rintro ⟨hmem, hnc⟩
      refine ⟨hmem, ?_⟩
      rw [Bool.eq_false_iff]
      intro hp
      simp only [entityIs, Bool.and_eq_true, beq_iff_eq] at hp
      exact hnc ⟨hp.1.1, hp.1.2, hp.2⟩
  · intro r
    rw [GraphDB.deleteEntity]
    simp only [List.mem_filter, Bool.not_eq_true']
    constructor
    · rintro ⟨hmem, hp⟩
      refine ⟨hmem, fun hc => ?_⟩
      rw [show relTouches u a id r = true by
        rcases hc.1 with h | h <;>
          simp [relTouches, h, hc.2.1, hc.2.2]] at hp
      cases hp
    · rintro ⟨hmem, hnc⟩
      refine ⟨hmem, ?_⟩
      rw [Bool.eq_false_iff]
      intro hp
      simp only [relTouches, Bool.and_eq_true, Bool.or_eq_true, beq_iff_eq] at hp
      exact hnc ⟨hp.1.1, hp.1.2, hp.2⟩
  · rw [GraphDB.deleteEntity]
    simp only [List.any_eq_true]
    constructor
    · rintro ⟨e, hmem, hp⟩
      simp only [entityIs, Bool.and_eq_true, beq_iff_eq] at hp
      exact ⟨e, hmem, hp.1.1, hp.1.2, hp.2⟩
    · rintro ⟨e, hmem, h1, h2, h3⟩
      exact ⟨e, hmem, by simp [entityIs, h1, h2, h3]⟩

/-- Generic form of `map_replace_perm` for any row type keyed by an
injective-on-the-list primary key. -/
theorem map_replace_perm_key {α : Type} [DecidableEq α] {l : List α} {r : α}
    (f : α → α) (key : α → String)
    (hnd : (l.map key).Nodup) (hr : r ∈ l)
    (hfix : ∀ q, key q ≠ key r → f q = q) :
    List.Perm (l.map f) (f r :: l.erase r) := by
  induction l with
  | nil => cases hr
  | cons a t ih =>
    have hnd' : key a ∉ t.map key ∧ (t.map key).Nodup := by
      simpa using hnd
    rcases List.mem_cons.1 hr with rfl | hrt
    · have hnot : ∀ q ∈ t, f q = q := by
        intro q hq
        refine hfix q ?_
        intro hid
        refine hnd'.1 ?_
        rw [← hid]
        exact List.mem_map_of_mem key hq
      have hmt : t.map f = t := by
        calc t.map f = t.map id := List.map_congr_left hnot
        _ = t := List.map_id t
      simp [hmt, List.erase_cons_head]
    · have haid : key a ≠ key r := by
        intro hid
        refine hnd'.1 ?_
        rw [hid]
        exact List.mem_map_of_mem key hrt
      have hane : a ≠ r := fun h => haid (by rw [h])
      have hfa : f a = a := hfix a haid
      have iht := ih hnd'.2 hrt
      have herase : (a :: t).erase r = a :: t.erase r := by
        rw [List.erase_cons_tail]
        simp [hane]
      rw [herase]
      have h1 : (a :: t).map f = a :: t.map f := by
        simp [hfa]
      rw [h1]
      exact (iht.cons a).trans (List.Perm.swap _ _ _)

/-- The surviving edge row after the conflict branch of
`createRelationship`: the existing row with `weight`, `properties` and
`created_at` replaced. -/
def updatedRel (inp : RelationshipCreateInput) (now : String)
    (r0 : RelationshipRow) : RelationshipRow :=
  { r0 with
    weight := inp.weight.getD 1
    properties := jsonStringify (inp.properties.getD (.jobj []))
    created_at := now }

/-- C10: calling `createRelationship` on a triple that already has an edge
row leaves exactly one edge row with that triple; the surviving row keeps
its original id while its weight, properties and created_at take the new
call's values; the `Relationship` object returned to the caller carries the
freshly generated id, which differs from the surviving row's id and
identifies no stored edge. -/
theorem createRelationship_upsert_semantics (g : GraphState) (u a : String)
    (inp : RelationshipCreateInput) (newId now : String) (r0 : RelationshipRow)
    (hr0 : r0 ∈ g.relationships) (htr : tripleMatch inp r0 = true)
    (huniq : ∀ r ∈ g.relationships, tripleMatch inp r = true → r = r0)
    (hids : (g.relationships.map (fun r => r.id)).Nodup)
    (hfresh : ∀ r ∈ g.relationships, r.id ≠ newId) :
    (GraphDB.createRelationship u a inp newId now g).2.entities = g.entities ∧
    List.Perm (GraphDB.createRelationship u a inp newId now g).2.relationships
      (updatedRel inp now r0 :: g.relationships.erase r0) ∧
    updatedRel inp now r0 ∈
      (GraphDB.createRelationship u a inp newId now g).2.relationships ∧
    ((GraphDB.createRelationship u a inp newId now g).2.relationships.filter
      (tripleMatch inp)).length = 1 ∧
    (GraphDB.createRelationship u a inp newId now g).1.id = newId ∧
    newId ≠ r0.id ∧
    (∀ r ∈ (GraphDB.createRelationship u a inp newId now g).2.relationships,
      r.id ≠ newId) := by
  have hfind : g.relationships.find? (tripleMatch inp) = some r0 := by
    cases hf : g.relationships.find? (tripleMatch inp) with
    | none => exact absurd htr (by simpa using List.find?_eq_none.1 hf r0 hr0)
    | some r1 =>
      rw [huniq r1 (List.mem_of_find?_eq_some hf) (List.find?_some hf)]
  have hout : GraphDB.createRelationship u a inp newId now g =
      (⟨newId, inp.source_entity_id, inp.target_entity_id, inp.relation_type,
        inp.weight.getD 1, jsonStringify (inp.properties.getD (.jobj [])), u, a, now⟩,
       ⟨g.entities, g.relationships.map (fun r => if r.id == r0.id then
          { r with
            weight := inp.weight.getD 1
            properties := jsonStringify (inp.properties.getD (.jobj []))
            created_at := now } else r)⟩) := by
    rw [GraphDB.createRelationship]
    rw [hfind]
  have hfixid : ∀ (q : RelationshipRow), q.id ≠ r0.id →
      (fun r => if r.id == r0.id then
        { r with
          weight := inp.weight.getD 1
          properties := jsonStringify (inp.properties.getD (.jobj []))
          created_at := now } else r) q = q := by
    intro q hq
    simp [beq_eq_false_iff_ne.2 hq]
  have hfr0 : (fun r => if r.id == r0.id then
      { r with
        weight := inp.weight.getD 1
        properties := jsonStringify (inp.properties.getD (.jobj []))
        created_at := now } else r) r0 = updatedRel inp now r0 := by
    simp [updatedRel]
  have hperm := map_replace_perm_key
    (fun r => if r.id == r0.id then
      { r with
        weight := inp.weight.getD 1
        properties := jsonStringify (inp.properties.getD (.jobj []))
        created_at := now } else r)
    (fun r => r.id) hids hr0 hfixid
  rw [hfr0] at hperm
  have hrelsnd : (g.relationships.map (fun r => if r.id == r0.id then
      { r with
        weight := inp.weight.getD 1
        properties := jsonStringify (inp.properties.getD (.jobj []))
        created_at := now } else r)).Nodup → True := fun _ => trivial
  have hnodup_rows : g.relationships.Nodup := by
    have : Function.Injective (fun r : RelationshipRow => r) := fun x y h => h
    exact List.Nodup.of_map (fun r => r.id) hids
  have hr0notmem : r0 ∉ g.relationships.erase r0 :=
    fun hmem => (List.Nodup.mem_erase_iff hnodup_rows).1 hmem |>.1 rfl
  have htriple_upd : tripleMatch inp (updatedRel inp now r0) = true := by
    simpa [tripleMatch, updatedRel] using htr
  have herase_none : ∀ r ∈ g.relationships.erase r0,
      ¬(tripleMatch inp r = true) := by
    intro r hmem htr'
    have hrg : r ∈ g.relationships := (List.erase_sublist r0 g.relationships).subset hmem
    have := huniq r hrg htr'
    subst this
    exact hr0notmem hmem
  refine ⟨by rw [hout], by rw [hout]; exact hperm, ?_, ?_, by rw [hout], ?_, ?_⟩
  · rw [hout]
    exact hperm.symm.subset (List.mem_cons_self _ _)
  · rw [hout]
    have hfperm := hperm.filter (tripleMatch inp)
    rw [hfperm.length_eq]
    have hfilter_erase :
        (g.relationships.erase r0).filter (tripleMatch inp) = [] := by
      rw [List.filter_eq_nil_iff]
      exact fun r hr => herase_none r hr
    simp [List.filter_cons, htriple_upd, hfilter_erase]
  · exact fun h => hfresh r0 hr0 h.symm
  · rw [hout]
    intro r hmem
    rw [List.mem_map] at hmem
    obtain ⟨q, hq, hfq⟩ := hmem
    have hqid : r.id = q.id := by
      rw [← hfq]
      by_cases hcase : q.id == r0.id <;> simp [hcase]
    rw [hqid]
    exact hfresh q hq

/-- Concrete edge row for the C10 witness. -/
def relRowW : RelationshipRow :=
  { id := "rid-1"
    source_entity_id := "A"
    target_entity_id := "B"
    relation_type := "knows"
    weight := 1
    properties := "\x7b\x7d"
    scope_user_id := "default"
    scope_agent_id := "main"
    created_at := "2026-01-01T00:00:00.000Z" }

/-- Concrete upsert input for the C10 witness. -/
def relInputW : RelationshipCreateInput :=
  { source_entity_id := "A"
    target_entity_id := "B"
    relation_type := "knows"
    weight := some (1/2)
    properties := none }

/-- Witness for C10: a concrete second `createRelationship` on the same
triple updates the stored row in place and returns a dangling fresh id. -/
theorem createRelationship_upsert_semantics_witness :
    (relRowW ∈ (GraphState.mk [] [relRowW]).relationships ∧
      tripleMatch relInputW relRowW = true ∧
      (∀ r ∈ (GraphState.mk [] [relRowW]).relationships,
        tripleMatch relInputW r = true → r = relRowW) ∧
      ((GraphState.mk [] [relRowW]).relationships.map (fun r => r.id)).Nodup ∧
      (∀ r ∈ (GraphState.mk [] [relRowW]).relationships, r.id ≠ "rid-2")) ∧
    ((GraphDB.createRelationship "default" "main" relInputW "rid-2"
        "2026-01-05T00:00:00.000Z" (GraphState.mk [] [relRowW])).2.entities =
      (GraphState.mk [] [relRowW]).entities ∧
    List.Perm (GraphDB.createRelationship "default" "main" relInputW "rid-2"
        "2026-01-05T00:00:00.000Z" (GraphState.mk [] [relRowW])).2.relationships
      (updatedRel relInputW "2026-01-05T00:00:00.000Z" relRowW ::
        (GraphState.mk [] [relRowW]).relationships.erase relRowW) ∧
    updatedRel relInputW "2026-01-05T00:00:00.000Z" relRowW ∈
      (GraphDB.createRelationship "default" "main" relInputW "rid-2"
        "2026-01-05T00:00:00.000Z" (GraphState.mk [] [relRowW])).2.relationships ∧
    ((GraphDB.createRelationship "default" "main" relInputW "rid-2"
        "2026-01-05T00:00:00.000Z" (GraphState.mk [] [relRowW])).2.relationships.filter
      (tripleMatch relInputW)).length = 1 ∧
    (GraphDB.createRelationship "default" "main" relInputW "rid-2"
        "2026-01-05T00:00:00.000Z" (GraphState.mk [] [relRowW])).1.id = "rid-2" ∧
    ("rid-2" : String) ≠ relRowW.id ∧
    (∀ r ∈ (GraphDB.createRelationship "default" "main" relInputW "rid-2"
        "2026-01-05T00:00:00.000Z" (GraphState.mk [] [relRowW])).2.relationships,
      r.id ≠ "rid-2")) :=
  ⟨⟨List.mem_singleton_self _, by decide, by decide, by decide, by decide⟩,
   createRelationship_upsert_semantics (GraphState.mk [] [relRowW]) "default"
     "main" relInputW "rid-2" "2026-01-05T00:00:00.000Z" relRowW
     (List.mem_singleton_self _) (by decide) (by decide) (by decide) (by decide)⟩

/-! ## LLM extraction and the agent_end slot-apply loop
(src/services/llm-extractor.ts, src/hooks/auto-capture.ts lines 416-613)

`extractWithLLM` parses the LLM reply and hands `{slot_updates, memories}`
to the hook; its `ExtractionResult` type has no `slot_removals` field, so
any removals present in the model's JSON reply are dropped.  The agent_end
handler then upserts each sufficiently confident update via `SlotDB.set`
and never deletes a slot. -/

/-- One `slot_updates` entry of the LLM's JSON reply. -/
structure UpdateFact where
  key : String
  value : JValue
  confidence : Rat
  category : String

/-- One `slot_removals` entry of the LLM's JSON reply. -/
structure RemovalFact where
  key : String
  reason : String

/-- One `memories` entry of the LLM's JSON reply (`nspace` models the
source field `namespace`). -/
structure MemoryFact where
  text : String
  nspace : String
  confidence : Rat

/-- The parsed JSON object of a successful LLM response, before filtering. -/
structure LLMReply where
  slot_updates : List UpdateFact
  slot_removals : List RemovalFact
  memories : List MemoryFact

/-- `ExtractionResult` of llm-extractor.ts (lines 16-28): only
`slot_updates` and `memories`; there is no removals field. -/
structure ExtractionResultV1 where
  slot_updates : List UpdateFact
  memories : List MemoryFact

/-- The literal 0.7 as a normalized rational in constructor form, so that
concrete pipeline runs reduce inside the kernel. -/
def rat07 : Rat := ⟨7, 10, by norm_num, by norm_num⟩

/-- The literal 0.9 in constructor form. -/
def rat09 : Rat := ⟨9, 10, by norm_num, by norm_num⟩

/-- The filtering step of `extractWithLLM` (llm-extractor.ts lines 123-132):
keep updates and memories with confidence ≥ 0.7; `slot_removals` of the
reply is not read at all. -/
def extractWithLLM_filter (reply : LLMReply) : ExtractionResultV1 :=
  { slot_updates := reply.slot_updates.filter (fun s => decide (rat07 ≤ s.confidence))
    memories := reply.memories.filter (fun m => decide (rat07 ≤ m.confidence)) }

/-- The slot-apply loop of the agent_end handler (auto-capture.ts lines
486-503): for each extracted fact above the configured confidence, upsert
via `SlotDB.set` with source `auto_capture`; a failed statement is logged
and the loop continues. -/
def applySlotUpdates (u a : String) (minConfidence : Rat) (now : String)
    (nowMs : Nat) (facts : List UpdateFact) (store : List SlotRow) :
    List SlotRow :=
  facts.foldl (fun st f =>
    if f.confidence < minConfidence then st
    else match SlotDB.set u a
        ⟨f.key, f.value, some f.category, some "auto_capture",
          some f.confidence, none⟩ now nowMs st with
      | some (_, st') => st'
      | none => st) store

/-- The slot effect of one agent_end event that reaches the extraction step:
filter the reply as `extractWithLLM` does, then run the apply loop.  No
code path deletes a slot. -/
def agentEndApplySlots (u a : String) (minConfidence : Rat) (now : String)
    (nowMs : Nat) (store : List SlotRow) (reply : LLMReply) : List SlotRow :=
  applySlotUpdates u a minConfidence now nowMs
    (extractWithLLM_filter reply).slot_updates store

/-- A successful or failed `set` never loses a `(scope, key)` that was
present. -/
theorem set_step_preserves_key (u a : String) (inp : SlotSetInput) (now : String)
    (ms : Nat) {st : List SlotRow} :
    ∀ r ∈ st, ∃ r', r' ∈ (match SlotDB.set u a inp now ms st with
        | some (_, st') => st'
        | none => st) ∧
      r'.scope_user_id = r.scope_user_id ∧ r'.scope_agent_id = r.scope_agent_id ∧
      r'.key = r.key := by
  intro r hr
  cases hs : SlotDB.set u a inp now ms st with
  | none => exact ⟨r, hr, rfl, rfl, rfl⟩
  | some out =>
    obtain ⟨slot, st'⟩ := out
    cases hfind : st.find? (keyMatch u a inp.key) with
    | some existing =>
      simp only [SlotDB.set, hfind] at hs
      split at hs
      · exact absurd hs (by simp)
      · simp only [Option.some.injEq, Prod.mk.injEq] at hs
        obtain ⟨-, hst⟩ := hs
        subst hst
        refine ⟨_, List.mem_map_of_mem _ hr, ?_⟩
        by_cases hid : r.id == existing.id <;> simp [hid]
    | none =>
      simp only [SlotDB.set, hfind] at hs
      split at hs
      · exact absurd hs (by simp)
      · simp only [Option.some.injEq, Prod.mk.injEq] at hs
        obtain ⟨-, hst⟩ := hs
        subst hst
        exact ⟨r, List.mem_append_left _ hr, rfl, rfl, rfl⟩

theorem applySlotUpdates_preserves_keys (u a : String) (minConfidence : Rat)
    (now : String) (nowMs : Nat) (facts : List UpdateFact) :
    ∀ (store : List SlotRow), ∀ r ∈ store,
      ∃ r', r' ∈ applySlotUpdates u a minConfidence now nowMs facts store ∧
        r'.scope_user_id = r.scope_user_id ∧ r'.scope_agent_id = r.scope_agent_id ∧
        r'.key = r.key := by
  induction facts with
  | nil => intro store r hr; exact ⟨r, hr, rfl, rfl, rfl⟩
  | cons f rest ih =>
    intro store r hr
    rw [applySlotUpdates, List.foldl_cons]
    by_cases hc : f.confidence < minConfidence
    · rw [if_pos hc]
      exact ih store r hr
    · rw [if_neg hc]
      obtain ⟨r1, hr1, h1, h2, h3⟩ := set_step_preserves_key u a
        ⟨f.key, f.value, some f.category, some "auto_capture",
          some f.confidence, none⟩ now nowMs r hr
      obtain ⟨r2, hr2, g1, g2, g3⟩ := ih _ r1 hr1
      exact ⟨r2, hr2, g1.trans h1, g2.trans h2, g3.trans h3⟩

/-- Stale volatile slot seeded for the phase-transition scenario of C1. -/
def epicRowW : SlotRow :=
  { id := "project:project.current_epic:1000"
    scope_user_id := "default"
    scope_agent_id := "scrum"
    category := "project"
    key := "project.current_epic"
    value := "\"Phase 10\""
    source := "tool"
    confidence := 1
    version := 1
    created_at := "2026-01-01T00:00:00.000Z"
    updated_at := "2026-01-01T00:00:00.000Z"
    expires_at := none }

/-- LLM reply for the phase-transition conversation: a removal of the stale
`project.current_epic` plus its replacement update. -/
def phaseReplyW : LLMReply :=
  { slot_updates := [⟨"project.current_epic", .jstr "Phase 11", rat09, "project"⟩]
    slot_removals := [⟨"project.current_epic", "Phase 10 done, moved to Phase 11"⟩]
    memories := [] }

/-- Counterexample to C1 as stated: the agent_end pipeline never applies the
extractor's `slot_removals` — `extractWithLLM` drops them and the apply
loop only upserts.  In the phase-transition scenario the stale
`project.current_epic` slot is not deleted: it is updated in place to
`"Phase 11"` at version 2, so no slot is recreated at version 1. -/
theorem agentEnd_phase_transition_updates_in_place_cex :
    agentEndApplySlots "default" "scrum" rat07
        "2026-01-09T00:00:00.000Z" 2000 [epicRowW] phaseReplyW =
      [{ epicRowW with
          value := "\"Phase 11\""
          source := "auto_capture"
          confidence := rat09
          version := 2
          updated_at := "2026-01-09T00:00:00.000Z" }] ∧
    ¬(∃ r ∈ agentEndApplySlots "default" "scrum" rat07
          "2026-01-09T00:00:00.000Z" 2000 [epicRowW] phaseReplyW,
        r.key = "project.current_epic" ∧ r.version = 1) := by
  constructor
  · decide
  · decide

/-- C1 (amended): for every agent_end event that reaches the extraction
step, the slot stage applies no removals at all: the result is independent
of the reply's `slot_removals` (the extractor's result type has no such
field), only `slot_updates` with confidence at least `minConfidence` are
upserted through `SlotDB.set`, and every `(scope, key)` present before the
event is still present afterwards — a stale slot named in `slot_removals`
is never deleted, and its replacement update increments the existing
version instead of recreating the slot at version 1. -/
theorem agentEnd_applies_only_updates (u a : String) (minConfidence : Rat)
    (now : String) (nowMs : Nat) (store : List SlotRow)
    (ups : List UpdateFact) (rems rems' : List RemovalFact)
    (mems : List MemoryFact) :
    (agentEndApplySlots u a minConfidence now nowMs store ⟨ups, rems, mems⟩ =
      agentEndApplySlots u a minConfidence now nowMs store ⟨ups, rems', mems⟩) ∧
    (∀ r ∈ store,
      ∃ r', r' ∈ agentEndApplySlots u a minConfidence now nowMs store
          ⟨ups, rems, mems⟩ ∧
        r'.scope_user_id = r.scope_user_id ∧ r'.scope_agent_id = r.scope_agent_id ∧
        r'.key = r.key) :=
  ⟨rfl, applySlotUpdates_preserves_keys u a minConfidence now nowMs _ store⟩

/-! ## AutoRecall Current State merge (src/hooks/auto-recall.ts lines 137-175)

The hook queries three scopes in the order private, team, public; for each
it reads `getCurrentState` (values) and `list` (timestamps, as the
`tsMap`), then folds every `(category, key, value)` into a shared merged
object, keeping the value whose `updated_at` is greatest (JavaScript
`newTs > existingTs` on the ISO strings, with a falsy — empty — existing
timestamp always losing).  Underscore keys are skipped.  With the
`SlotDB` uniqueness invariant, each scope contributes at most one row per
key, so the per-scope enumeration is modelled by folding directly over the
scope's rows. -/

/-- One cell of the merged current state (category, key, value and the
timestamp recorded alongside it). -/
structure MergedE where
  cat : String
  key : String
  value : String
  ts : String
deriving DecidableEq, Repr

/-- `mergedState[category]?.[key]` together with its recorded timestamp. -/
def findE (acc : List MergedE) (cat k : String) : Option MergedE :=
  acc.find? (fun e => e.cat == cat && e.key == k)

/-- Overwrite the `(category, key)` cell in place. -/
def replaceE (acc : List MergedE) (cat k v ts : String) : List MergedE :=
  acc.map (fun e => if e.cat == cat && e.key == k then ⟨cat, k, v, ts⟩ else e)

/-- `tsMap[key] || ""`: the timestamp map is built by forward assignment
over the scope's rows (last write wins), with a falsy miss defaulting to
the empty string. -/
def tsLookup (rows : List SlotRow) (k : String) : String :=
  match (rows.filter (fun r => r.key == k)).getLast? with
  | some r => r.updated_at
  | none => ""

/-- Fold one row of the scope into the merged state (the inner loop of the
scope merge): skip underscore keys; first writer creates the cell; later
writers win only when fresher (`!existingTs || newTs > existingTs`). -/
def mergeRow (rows : List SlotRow) (acc : List MergedE) (r : SlotRow) :
    List MergedE :=
  if startsWithUnderscore r.key then acc
  else
    let newTs := tsLookup rows r.key
    match findE acc r.category r.key with
    | none => acc ++ [⟨r.category, r.key, r.value, newTs⟩]
    | some e =>
      if e.ts = "" ∨ strLt e.ts newTs = true then
        replaceE acc r.category r.key r.value newTs
      else acc

/-- Merge one scope's rows into the accumulator. -/
def mergeScope (acc : List MergedE) (rows : List SlotRow) : List MergedE :=
  rows.foldl (mergeRow rows) acc

/-- The three scopes AutoRecall queries, in order: private, team, public. -/
def recallScopes (u a : String) : List (String × String) :=
  [(u, a), (u, "__team__"), ("__public__", "__public__")]

/-- The rows one scope query sees: `cleanExpired` then the scope's rows
(`db.getCurrentState` / `db.list`). -/
def scopeRows (db : List SlotRow) (u a now : String) : List SlotRow :=
  (SlotDB.cleanExpired u a now db).filter (scopeMatch u a)

/-- The merged Current State built by `gatherRecallContext`. -/
def gatherMergedState (db : List SlotRow) (u a now : String) : List MergedE :=
  (recallScopes u a).foldl (fun acc s => mergeScope acc (scopeRows db s.1 s.2 now)) []

/-- The candidate a row contributes to the merge. -/
def toCand (r : SlotRow) : MergedE :=
  ⟨r.category, r.key, r.value, r.updated_at⟩

/-- `mergeRow` once the scope's timestamp map has been resolved: the pure
one-candidate step. -/
def mergeStep (acc : List MergedE) (c : MergedE) : List MergedE :=
  if startsWithUnderscore c.key then acc
  else match findE acc c.cat c.key with
  | none => acc ++ [c]
  | some e =>
    if e.ts = "" ∨ strLt e.ts c.ts = true then
      replaceE acc c.cat c.key c.value c.ts
    else acc

theorem strLt_empty_left {s : String} (h : strLt "" s = false) : s = "" := by
  cases s with
  | mk data =>
    cases data with
    | nil => rfl
    | cons c cs => exact absurd h (by simp [strLt, charListLt])

theorem findE_none_iff {acc : List MergedE} {cat k : String} :
    findE acc cat k = none ↔ ∀ e ∈ acc, ¬(e.cat = cat ∧ e.key = k) := by
  rw [findE, List.find?_eq_none]
  constructor
  · intro h e he hc
    exact h e he (by simp [hc.1, hc.2])
  · intro h e he hp
    simp only [Bool.and_eq_true, beq_iff_eq] at hp
    exact h e he ⟨hp.1, hp.2⟩

theorem findE_some {acc : List MergedE} {cat k : String} {e : MergedE}
    (h : findE acc cat k = some e) :
    e ∈ acc ∧ e.cat = cat ∧ e.key = k := by
  refine ⟨List.mem_of_find?_eq_some h, ?_⟩
  have := List.find?_some h
  simp only [Bool.and_eq_true, beq_iff_eq] at this
  exact this

/-- Distinct `(category, key)` cells. -/
def CKDistinct (e f : MergedE) : Prop :=
  ¬(e.cat = f.cat ∧ e.key = f.key)

theorem ckDistinct_symm : Symmetric CKDistinct := by
  intro e f h hc
  exact h ⟨hc.1.symm, hc.2.symm⟩

theorem replaceE_mem {acc : List MergedE} {cat k v ts : String} {e' : MergedE}
    (h : e' ∈ replaceE acc cat k v ts) :
    (e' = ⟨cat, k, v, ts⟩) ∨ (e' ∈ acc ∧ ¬(e'.cat = cat ∧ e'.key = k)) := by
  rw [replaceE, List.mem_map] at h
  obtain ⟨e, he, hfe⟩ := h
  by_cases hm : e.cat == cat && e.key == k
  · rw [if_pos hm] at hfe
    exact Or.inl hfe.symm
  · rw [if_neg hm] at hfe
    subst hfe
    refine Or.inr ⟨he, fun hc => hm (by simp [hc.1, hc.2])⟩

theorem replaceE_mem_of_match {acc : List MergedE} {cat k v ts : String}
    {e : MergedE} (he : e ∈ acc) (hm : e.cat = cat ∧ e.key = k) :
    (⟨cat, k, v, ts⟩ : MergedE) ∈ replaceE acc cat k v ts := by
  rw [replaceE, List.mem_map]
  exact ⟨e, he, by simp [hm.1, hm.2]⟩

theorem replaceE_mem_of_nonmatch {acc : List MergedE} {cat k v ts : String}
    {e : MergedE} (he : e ∈ acc) (hm : ¬(e.cat = cat ∧ e.key = k)) :
    e ∈ replaceE acc cat k v ts := by
  rw [replaceE, List.mem_map]
  refine ⟨e, he, ?_⟩
  have hcond : ¬((e.cat == cat && e.key == k) = true) :=
    fun hp => hm (by simpa using hp)
  rw [if_neg hcond]

theorem replaceE_pairwise {acc : List MergedE} {cat k v ts : String}
    (h : acc.Pairwise CKDistinct) :
    (replaceE acc cat k v ts).Pairwise CKDistinct := by
  rw [replaceE, List.pairwise_map]
  refine h.imp_of_mem ?_
  intro e f he hf hef
  have hck : ∀ (x : MergedE),
      ((if x.cat == cat && x.key == k then (⟨cat, k, v, ts⟩ : MergedE) else x).cat = x.cat ∧
       (if x.cat == cat && x.key == k then (⟨cat, k, v, ts⟩ : MergedE) else x).key = x.key) := by
    intro x
    by_cases hx : x.cat == cat && x.key == k
    · rw [if_pos hx]
      simp only [Bool.and_eq_true, beq_iff_eq] at hx
      exact ⟨hx.1.symm, hx.2.symm⟩
    · rw [if_neg hx]
      exact ⟨rfl, rfl⟩
  intro hc
  exact hef ⟨((hck e).1.symm.trans (hc.1.trans (hck f).1)),
    ((hck e).2.symm.trans (hc.2.trans (hck f).2))⟩

/-- Under distinct keys, the scope timestamp map returns each row's own
`updated_at`. -/
theorem tsLookup_eq {rows : List SlotRow} {r : SlotRow}
    (hpw : rows.Pairwise (fun x y => ¬(x.key = y.key))) (hr : r ∈ rows) :
    tsLookup rows r.key = r.updated_at := by
  induction rows with
  | nil => cases hr
  | cons a t ih =>
    obtain ⟨hhead, htail⟩ := List.pairwise_cons.1 hpw
    rcases List.mem_cons.1 hr with rfl | hrt
    · have hfilter : t.filter (fun q => q.key == r.key) = [] := by
        rw [List.filter_eq_nil_iff]
        intro q hq
        simp only [beq_iff_eq]
        exact fun hk => hhead q hq hk.symm
      rw [tsLookup]
      have hcond : (r.key == r.key) = true := by simp
      simp only [List.filter_cons, hcond, if_true, hfilter]
      rfl
    · have hcond : (a.key == r.key) = false := by
        simp only [beq_eq_false_iff_ne, ne_eq]
        exact hhead r hrt
      rw [tsLookup]
      simp only [List.filter_cons, hcond, if_false]
      exact ih htail hrt

/-- Once every row's timestamp lookup resolves to its own `updated_at`, the
scope merge is the pure candidate fold. -/
theorem mergeScope_eq_fold {rows : List SlotRow}
    (hts : ∀ r ∈ rows, tsLookup rows r.key = r.updated_at) :
    ∀ (l : List SlotRow), (∀ r ∈ l, r ∈ rows) →
    ∀ acc, l.foldl (mergeRow rows) acc = (l.map toCand).foldl mergeStep acc := by
  intro l
  induction l with
  | nil => intro _ acc; rfl
  | cons r t ih =>
    intro hsub acc
    have hr : r ∈ rows := hsub r (List.mem_cons_self r t)
    have hstep : mergeRow rows acc r = mergeStep acc (toCand r) := by
      rw [mergeRow, mergeStep]
      simp only [toCand, hts r hr]
    simp only [List.foldl_cons, List.map_cons, hstep]
    exact ih (fun q hq => hsub q (List.mem_cons_of_mem r hq)) _

/-- Invariant of the candidate fold: cells have pairwise-distinct
`(category, key)`, every cell is one of the processed candidates none of
which is strictly fresher on the same `(category, key)`, and every
processed non-underscore candidate has a cell. -/
def MergeInv (cs acc : List MergedE) : Prop :=
  acc.Pairwise CKDistinct ∧
  (∀ e ∈ acc, startsWithUnderscore e.key = false ∧ e ∈ cs ∧
    ∀ c ∈ cs, c.cat = e.cat → c.key = e.key → strLt e.ts c.ts = false) ∧
  (∀ c ∈ cs, startsWithUnderscore c.key = false →
    ∃ e ∈ acc, e.cat = c.cat ∧ e.key = c.key)

theorem mergeStep_inv {processed acc : List MergedE} (c : MergedE)
    (h : MergeInv processed acc) : MergeInv (processed ++ [c]) (mergeStep acc c) := by
  obtain ⟨hpw, hent, hcomp⟩ := h
  by_cases hund : startsWithUnderscore c.key = true
  · rw [mergeStep, if_pos hund]
    refine ⟨hpw, ?_, ?_⟩
    · intro e he
      obtain ⟨h1, h2, h3⟩ := hent e he
      refine ⟨h1, List.mem_append_left _ h2, ?_⟩
      intro c' hc' hcat hkey
      rcases List.mem_append.1 hc' with hcp | hcsing
      · exact h3 c' hcp hcat hkey
      · rw [List.mem_singleton] at hcsing
        subst hcsing
        rw [hkey, h1] at hund
        cases hund
    · intro c' hc' hc'und
      rcases List.mem_append.1 hc' with hcp | hcsing
      · exact hcomp c' hcp hc'und
      · rw [List.mem_singleton] at hcsing
        subst hcsing
        rw [hc'und] at hund
        cases hund
  · rw [Bool.not_eq_true] at hund
    rw [mergeStep, if_neg (by rw [hund]; exact Bool.false_ne_true)]
    cases hfind : findE acc c.cat c.key with
    | none =>
      simp only [hfind]
      have hnone := findE_none_iff.1 hfind
      refine ⟨?_, ?_, ?_⟩
      · rw [List.pairwise_append]
        refine ⟨hpw, List.pairwise_singleton _ _, ?_⟩
        intro e he c' hc'
        rw [List.mem_singleton] at hc'
        subst hc'
        exact hnone e he
      · intro e he
        rcases List.mem_append.1 he with hea | hes
        · obtain ⟨h1, h2, h3⟩ := hent e hea
          refine ⟨h1, List.mem_append_left _ h2, ?_⟩
          intro c' hc' hcat hkey
          rcases List.mem_append.1 hc' with hcp | hcsing
          · exact h3 c' hcp hcat hkey
          · rw [List.mem_singleton] at hcsing
            subst hcsing
            exact absurd ⟨hcat.symm, hkey.symm⟩ (hnone e hea)
        · rw [List.mem_singleton] at hes
          subst hes
          refine ⟨hund, List.mem_append_right _ (List.mem_singleton_self _), ?_⟩
          intro c' hc' hcat hkey
          rcases List.mem_append.1 hc' with hcp | hcsing
          · obtain ⟨e', he', hcat', hkey'⟩ := hcomp c' hcp (by rw [hkey, hund])
            exact absurd ⟨hcat'.trans hcat, hkey'.trans hkey⟩ (hnone e' he')
          · rw [List.mem_singleton] at hcsing
            subst hcsing
            exact strLt_irrefl _
      · intro c' hc' hc'und
        rcases List.mem_append.1 hc' with hcp | hcsing
        · obtain ⟨e', he', hp⟩ := hcomp c' hcp hc'und
          exact ⟨e', List.mem_append_left _ he', hp⟩
        · rw [List.mem_singleton] at hcsing
          subst hcsing
          exact ⟨c', List.mem_append_right _ (List.mem_singleton_self _), rfl, rfl⟩
    | some e0 =>
      simp only [hfind]
      obtain ⟨he0mem, he0cat, he0key⟩ := findE_some hfind
      have huniq : ∀ e ∈ acc, e.cat = c.cat → e.key = c.key → e = e0 := by
        intro e he hcat hkey
        by_contra hne
        exact hpw.forall ckDistinct_symm he he0mem hne
          ⟨hcat.trans he0cat.symm, hkey.trans he0key.symm⟩
      split
      · rename_i hrepl
        refine ⟨replaceE_pairwise hpw, ?_, ?_⟩
        · intro e he
          rcases replaceE_mem he with rfl | ⟨hea, hnm⟩
          · refine ⟨hund, List.mem_append_right _ (List.mem_singleton_self _), ?_⟩
            intro c' hc' hcat hkey
            rcases List.mem_append.1 hc' with hcp | hcsing
            · obtain ⟨-, -, h3⟩ := hent e0 he0mem
              have hmax := h3 c' hcp (hcat.trans he0cat.symm) (hkey.trans he0key.symm)
              by_contra hlt
              rw [Bool.not_eq_false] at hlt
              rcases hrepl with hempty | hfresh
              · rw [hempty] at hmax
                have hce := strLt_empty_left hmax
                rw [hce] at hlt
                exact absurd hlt (by simp [strLt_empty_right])
              · have := strLt_trans hfresh hlt
                rw [this] at hmax
                cases hmax
            · rw [List.mem_singleton] at hcsing
              subst hcsing
              exact strLt_irrefl _
          · obtain ⟨h1, h2, h3⟩ := hent e hea
            refine ⟨h1, List.mem_append_left _ h2, ?_⟩
            intro c' hc' hcat hkey
            rcases List.mem_append.1 hc' with hcp | hcsing
            · exact h3 c' hcp hcat hkey
            · rw [List.mem_singleton] at hcsing
              subst hcsing
              exact absurd ⟨hcat.symm, hkey.symm⟩ hnm
        · intro c' hc' hc'und
          rcases List.mem_append.1 hc' with hcp | hcsing
          · obtain ⟨e', he', hcat', hkey'⟩ := hcomp c' hcp hc'und
            by_cases hm : e'.cat = c.cat ∧ e'.key = c.key
            · exact ⟨⟨c.cat, c.key, c.value, c.ts⟩,
                replaceE_mem_of_match he' hm,
                (hm.1.symm.trans hcat'), (hm.2.symm.trans hkey')⟩
            · exact ⟨e', replaceE_mem_of_nonmatch he' hm, hcat', hkey'⟩
          · rw [List.mem_singleton] at hcsing
            subst hcsing
            exact ⟨⟨c'.cat, c'.key, c'.value, c'.ts⟩,
              replaceE_mem_of_match he0mem ⟨he0cat, he0key⟩, rfl, rfl⟩
      · rename_i hkeep
        refine ⟨hpw, ?_, ?_⟩
        · intro e he
          obtain ⟨h1, h2, h3⟩ := hent e he
          refine ⟨h1, List.mem_append_left _ h2, ?_⟩
          intro c' hc' hcat hkey
          rcases List.mem_append.1 hc' with hcp | hcsing
          · exact h3 c' hcp hcat hkey
          · rw [List.mem_singleton] at hcsing
            subst hcsing
            have heq := huniq e he hcat.symm hkey.symm
            subst heq
            by_contra hlt
            rw [Bool.not_eq_false] at hlt
            exact hkeep (Or.inr hlt)
        · intro c' hc' hc'und
          rcases List.mem_append.1 hc' with hcp | hcsing
          · exact hcomp c' hcp hc'und
          · rw [List.mem_singleton] at hcsing
            subst hcsing
            exact ⟨e0, he0mem, he0cat, he0key⟩

theorem mergeFold_inv :
    ∀ (cs processed acc : List MergedE), MergeInv processed acc →
    MergeInv (processed ++ cs) (cs.foldl mergeStep acc) := by
  intro cs
  induction cs with
  | nil => intro processed acc h; simpa using h
  | cons c rest ih =>
    intro processed acc h
    have hnext := ih (processed ++ [c]) (mergeStep acc c) (mergeStep_inv c h)
    simpa [List.append_assoc] using hnext

theorem scopeRows_pairwise_keys {db : List SlotRow} (u a now : String)
    (hdb : db.Pairwise KeyDistinct) :
    (scopeRows db u a now).Pairwise (fun x y => ¬(x.key = y.key)) := by
  have hsub : (scopeRows db u a now).Sublist db :=
    (List.filter_sublist _).trans (List.filter_sublist _)
  refine ((hdb.sublist hsub).imp_of_mem ?_)
  intro r q hr hq hkd hkey
  have hrs := scopeMatch_iff.1 (List.of_mem_filter hr)
  have hqs := scopeMatch_iff.1 (List.of_mem_filter hq)
  exact hkd ⟨hrs.1.trans hqs.1.symm, hrs.2.trans hqs.2.symm, hkey⟩

theorem mergeScope_as_cands {db : List SlotRow} (u a now : String)
    (hdb : db.Pairwise KeyDistinct) (acc : List MergedE) :
    mergeScope acc (scopeRows db u a now) =
      ((scopeRows db u a now).map toCand).foldl mergeStep acc := by
  have hpwk := scopeRows_pairwise_keys u a now hdb
  exact mergeScope_eq_fold
    (fun r hr => tsLookup_eq hpwk hr) _ (fun q hq => hq) acc

theorem gatherMergedState_as_cands {db : List SlotRow} (u a now : String)
    (hdb : db.Pairwise KeyDistinct) :
    gatherMergedState db u a now =
      (((scopeRows db u a now).map toCand ++
        (scopeRows db u "__team__" now).map toCand) ++
        (scopeRows db "__public__" "__public__" now).map toCand).foldl
          mergeStep [] := by
  rw [gatherMergedState, recallScopes]
  simp only [List.foldl_cons, List.foldl_nil]
  rw [mergeScope_as_cands u a now hdb, mergeScope_as_cands u "__team__" now hdb,
    mergeScope_as_cands "__public__" "__public__" now hdb]
  rw [List.foldl_append, List.foldl_append]

theorem mem_recall_cands {db : List SlotRow} {u a now : String} {c : MergedE} :
    c ∈ (((scopeRows db u a now).map toCand ++
        (scopeRows db u "__team__" now).map toCand) ++
        (scopeRows db "__public__" "__public__" now).map toCand) ↔
      ∃ s ∈ recallScopes u a, ∃ r ∈ scopeRows db s.1 s.2 now, toCand r = c := by
  constructor
  · intro hc
    rcases List.mem_append.1 hc with h12 | h3
    · rcases List.mem_append.1 h12 with h1 | h2
      · obtain ⟨r, hr, hrc⟩ := List.mem_map.1 h1
        exact ⟨(u, a), by simp [recallScopes], r, hr, hrc⟩
      · obtain ⟨r, hr, hrc⟩ := List.mem_map.1 h2
        exact ⟨(u, "__team__"), by simp [recallScopes], r, hr, hrc⟩
    · obtain ⟨r, hr, hrc⟩ := List.mem_map.1 h3
      exact ⟨("__public__", "__public__"), by simp [recallScopes], r, hr, hrc⟩
  · rintro ⟨s, hs, r, hr, rfl⟩
    simp only [recallScopes, List.mem_cons, List.mem_singleton,
      List.not_mem_nil, or_false] at hs
    rcases hs with rfl | rfl | rfl
    · exact List.mem_append_left _
        (List.mem_append_left _ (List.mem_map_of_mem toCand hr))
    · exact List.mem_append_left _
        (List.mem_append_right _ (List.mem_map_of_mem toCand hr))
    · exact List.mem_append_right _ (List.mem_map_of_mem toCand hr)

/-- C3: in AutoRecall's Current State merge over the scopes queried in the
order private `(u, a)`, team `(u, "__team__")`, public
`("__public__", "__public__")`, every emitted `(category, key)` cell
carries the value and timestamp of a queried slot with that category and
key which no queried slot with the same category and key strictly beats on
`updated_at` (freshness wins, not scope priority); keys beginning with an
underscore are skipped, and every other queried `(category, key)` is
emitted. -/
theorem autoRecall_merge_freshness_wins (db : List SlotRow) (u a now : String)
    (hdb : db.Pairwise KeyDistinct) :
    (∀ e ∈ gatherMergedState db u a now, startsWithUnderscore e.key = false) ∧
    (∀ e ∈ gatherMergedState db u a now,
      ∃ s ∈ recallScopes u a, ∃ r ∈ scopeRows db s.1 s.2 now,
        r.category = e.cat ∧ r.key = e.key ∧ r.value = e.value ∧
          r.updated_at = e.ts ∧
          (∀ s' ∈ recallScopes u a, ∀ r' ∈ scopeRows db s'.1 s'.2 now,
            r'.category = e.cat → r'.key = e.key →
            strLt r.updated_at r'.updated_at = false)) ∧
    (∀ s ∈ recallScopes u a, ∀ r ∈ scopeRows db s.1 s.2 now,
      startsWithUnderscore r.key = false →
      ∃ e ∈ gatherMergedState db u a now, e.cat = r.category ∧ e.key = r.key) := by
  have hinv0 : MergeInv [] [] :=
    ⟨List.Pairwise.nil, fun e he => absurd he (List.not_mem_nil e),
     fun c hc => absurd hc (List.not_mem_nil c)⟩
  have hinv := mergeFold_inv
    (((scopeRows db u a now).map toCand ++
      (scopeRows db u "__team__" now).map toCand) ++
      (scopeRows db "__public__" "__public__" now).map toCand) [] [] hinv0
  rw [List.nil_append] at hinv
  rw [← gatherMergedState_as_cands u a now hdb] at hinv
  obtain ⟨-, hent, hcomp⟩ := hinv
  refine ⟨?_, ?_, ?_⟩
  · intro e he
    exact (hent e he).1
  · intro e he
    obtain ⟨hund, hecs, hmax⟩ := hent e he
    obtain ⟨s, hsmem, r, hrmem, htc⟩ := mem_recall_cands.1 hecs
    refine ⟨s, hsmem, r, hrmem, ?_, ?_, ?_, ?_, ?_⟩
    · rw [← htc]; rfl
    · rw [← htc]; rfl
    · rw [← htc]; rfl
    · rw [← htc]; rfl
    · intro s' hs' r' hr' hcat' hkey'
      have hcs' : toCand r' ∈ _ := mem_recall_cands.2 ⟨s', hs', r', hr', rfl⟩
      have := hmax (toCand r') hcs' hcat' hkey'
      rw [← htc] at this
      exact this
  · intro s hs r hr hrund
    have hcs : toCand r ∈ _ := mem_recall_cands.2 ⟨s, hs, r, hr, rfl⟩
    obtain ⟨e, he, hcat, hkey⟩ := hcomp (toCand r) hcs hrund
    exact ⟨e, he, hcat, hkey⟩

instance (r q : SlotRow) : Decidable (KeyDistinct r q) := by
  unfold KeyDistinct
  infer_instance

/-- Private-scope row for the C3 witness (older). -/
def privRowW : SlotRow :=
  { id := "custom:topic:1"
    scope_user_id := "default"
    scope_agent_id := "main"
    category := "custom"
    key := "topic"
    value := "\"old\""
    source := "tool"
    confidence := 1
    version := 1
    created_at := "2026-01-01T00:00:00.000Z"
    updated_at := "2026-01-01T00:00:00.000Z"
    expires_at := none }

/-- Team-scope row for the C3 witness (fresher, same category and key). -/
def teamRowW : SlotRow :=
  { id := "custom:topic:2"
    scope_user_id := "default"
    scope_agent_id := "__team__"
    category := "custom"
    key := "topic"
    value := "\"new\""
    source := "tool"
    confidence := 1
    version := 1
    created_at := "2026-01-05T00:00:00.000Z"
    updated_at := "2026-01-05T00:00:00.000Z"
    expires_at := none }

/-- Witness for C3 at a concrete two-scope table. -/
theorem autoRecall_merge_freshness_wins_witness :
    ([privRowW, teamRowW].Pairwise KeyDistinct) ∧
    ((∀ e ∈ gatherMergedState [privRowW, teamRowW] "default" "main"
        "2026-01-09T00:00:00.000Z", startsWithUnderscore e.key = false) ∧
    (∀ e ∈ gatherMergedState [privRowW, teamRowW] "default" "main"
        "2026-01-09T00:00:00.000Z",
      ∃ s ∈ recallScopes "default" "main",
        ∃ r ∈ scopeRows [privRowW, teamRowW] s.1 s.2 "2026-01-09T00:00:00.000Z",
        r.category = e.cat ∧ r.key = e.key ∧ r.value = e.value ∧
          r.updated_at = e.ts ∧
          (∀ s' ∈ recallScopes "default" "main",
            ∀ r' ∈ scopeRows [privRowW, teamRowW] s'.1 s'.2
              "2026-01-09T00:00:00.000Z",
            r'.category = e.cat → r'.key = e.key →
            strLt r.updated_at r'.updated_at = false)) ∧
    (∀ s ∈ recallScopes "default" "main",
      ∀ r ∈ scopeRows [privRowW, teamRowW] s.1 s.2 "2026-01-09T00:00:00.000Z",
      startsWithUnderscore r.key = false →
      ∃ e ∈ gatherMergedState [privRowW, teamRowW] "default" "main"
        "2026-01-09T00:00:00.000Z", e.cat = r.category ∧ e.key = r.key)) :=
  ⟨by decide,
   autoRecall_merge_freshness_wins [privRowW, teamRowW] "default" "main"
     "2026-01-09T00:00:00.000Z" (by decide)⟩
